import Mathlib

/-! # Ontology: subtree-restricted prefix counts

A shallow embedding of `src/ontology/ontology.cc` and the properties of its
natural-language specification.

Conventions of the embedding.

* A `std::string` is a list of characters (`Str`), a `std::vector` a list, a `std::pair` a
  product.
* An `unordered_map` with string keys is an association list with distinct keys (`UMap`).
  The program only ever looks keys up, so the iteration order is immaterial.
* A call that can throw or that leaves defined behaviour returns `Except Fault`:
  `Fault.outOfRange` is the `std::out_of_range` of `at` and `substr`,
  `Fault.undefinedBehaviour` is `pop_back` on an empty vector.
* Sizes, loop counters and the `int` counts are natural numbers and integers.  The source
  bounds its input (at most 10^5 topics, questions and queries, an input file below 5 MB),
  so no loop counter wraps and no count overflows; the three places where the source does
  rely on wrap-around for ordinary inputs are modelled explicitly: `npos` stored in an
  `int` is `-1`, a negative `int` passed as a `size_t` is `2^64` more, and the index `i-1`
  of the `unsigned int` `i = 0` is 4294967295, out of range.
* The trees, lines and counting functions of the second half of the definitions are the
  vocabulary of the specification; the program never builds a tree.
-/

namespace Ontology

/-- A `std::string`. -/
abbrev Str := List Char

/-- The ways a run leaves normal control flow. -/
inductive Fault where
  /-- The exception `std::out_of_range`, thrown by `at` and by `substr`. -/
  | outOfRange
  /-- Undefined behaviour: `pop_back` on an empty vector. -/
  | undefinedBehaviour
  deriving DecidableEq, Repr

/-! ## Unordered maps -/

/-- An `unordered_map<string, β>`. -/
abbrev UMap (β : Type) := List (Str × β)

/-- The value stored under `k`, when `k` is a key. -/
def UMap.find? {β : Type} : UMap β → Str → Option β
  | [], _ => none
  | (k', v) :: m, k => if k' = k then some v else UMap.find? m k

/-- The member `count(k)`: 1 when `k` is a key, 0 otherwise. -/
def UMap.count {β : Type} (m : UMap β) (k : Str) : Nat :=
  if (UMap.find? m k).isSome then 1 else 0

/-- The const member `at(k)`: throws `std::out_of_range` when `k` is not a key. -/
def UMap.at {β : Type} (m : UMap β) (k : Str) : Except Fault β :=
  match UMap.find? m k with
  | some v => .ok v
  | none => .error .outOfRange

/-- The assignment `m[k] = v`: overwrites the value of an existing key, inserts a new key
otherwise. -/
def UMap.set {β : Type} : UMap β → Str → β → UMap β
  | [], k, v => [(k, v)]
  | (k', v') :: m, k, v => if k' = k then (k, v) :: m else (k', v') :: UMap.set m k v

/-- The read `m[k]`: the stored value, or the value-initialised `dflt` that `operator[]`
inserts when `k` is absent. -/
def UMap.sub {β : Type} (m : UMap β) (k : Str) (dflt : β) : β :=
  (UMap.find? m k).getD dflt

/-- The keys of a map. -/
def UMap.keys {β : Type} (m : UMap β) : List Str := m.map Prod.fst

/-! ## Strings -/

/-- An `int` converted to `size_t`: unchanged when it is non-negative, `2^64 + i` when it is
negative. -/
def toSize (i : Int) : Nat := if 0 ≤ i then i.toNat else (i + 2 ^ 64).toNat

/-- The call `s.substr(pos, count)`: throws when `pos` exceeds the size, and returns at most
`count` characters from `pos` on. -/
def substr (s : Str) (pos count : Nat) : Except Fault Str :=
  if s.length < pos then .error .outOfRange else .ok ((s.drop pos).take count)

/-- The call `s.substr(pos)`: throws when `pos` exceeds the size, and returns the characters
from `pos` to the end. -/
def substrFrom (s : Str) (pos : Nat) : Except Fault Str :=
  if s.length < pos then .error .outOfRange else .ok (s.drop pos)

/-- The index of the first space of a line, when it has one. -/
def spaceIndex : Str → Option Nat
  | [] => none
  | c :: cs => if c = ' ' then some 0 else (spaceIndex cs).map (fun i => i + 1)

/-- The statement `int pos = line.find_first_of(" ")`: the index of the first space, or `npos`
converted to `int`, which is `-1`. -/
def find_first_of_space (line : Str) : Int :=
  match spaceIndex line with
  | some i => (i : Int)
  | none => -1

/-- The whitespace of `operator>>`: `isspace` in the "C" locale. -/
def isSpace (c : Char) : Bool :=
  c = ' ' || c = Char.ofNat 9 || c = Char.ofNat 10 || c = Char.ofNat 11 || c = Char.ofNat 12
    || c = Char.ofNat 13

/-- The loop `while (ss >> word)` with the word read so far in `word` (reversed). -/
def splitAux : Str → Str → List Str
  | [], word => if word = [] then [] else [word.reverse]
  | c :: cs, word =>
    if isSpace c then
      if word = [] then splitAux cs [] else word.reverse :: splitAux cs []
    else splitAux cs (c :: word)

/-- The function `SplitString`: the maximal whitespace-free words of the line, in order. -/
def SplitString (line : Str) : List Str := splitAux line []

/-! ## Topic input -/

/-- The function `IsTopic`. -/
def IsTopic (token : Str) : Bool := token != ['('] && token != [')']

/-- The state of the loop of `GetTopicsToTopicsOnPaths`. -/
structure PathState where
  /-- The map under construction. -/
  topicsToTopicsOnPaths : UMap (List Str)
  /-- The ancestor stack. -/
  currentTopicsOnPath : List Str
  /-- The value of `tokens.at(i-1)`.  At `i = 0` there is none: `i` is an `unsigned int`,
  `i-1` is 4294967295 and `at` throws. -/
  previous : Option Str

/-- The body of the loop of `GetTopicsToTopicsOnPaths`, at the token `tok = tokens.at(i)`. -/
def topicsStep (st : PathState) (tok : Str) : Except Fault PathState :=
  if IsTopic tok then
    let pushed := st.currentTopicsOnPath ++ [tok]
    .ok { topicsToTopicsOnPaths := UMap.set st.topicsToTopicsOnPaths tok pushed
          currentTopicsOnPath := pushed.dropLast
          previous := some tok }
  else if tok = ['('] then
    match st.previous with
    | none => .error .outOfRange
    | some p =>
      .ok { topicsToTopicsOnPaths := st.topicsToTopicsOnPaths
            currentTopicsOnPath := st.currentTopicsOnPath ++ [p]
            previous := some tok }
  else
    match st.currentTopicsOnPath with
    | [] => .error .undefinedBehaviour
    | t :: ts =>
      .ok { topicsToTopicsOnPaths := st.topicsToTopicsOnPaths
            currentTopicsOnPath := (t :: ts).dropLast
            previous := some tok }

/-- The loop of `GetTopicsToTopicsOnPaths` over the tokens, from the empty map and stack. -/
def topicsLoop (tokens : List Str) : Except Fault PathState :=
  tokens.foldlM topicsStep
    { topicsToTopicsOnPaths := [], currentTopicsOnPath := [], previous := none }

/-- The function `GetTopicsToTopicsOnPaths` after `SplitString`: the map is returned
whatever the ancestor stack holds when the tokens end. -/
def topicsOfTokens (tokens : List Str) : Except Fault (UMap (List Str)) :=
  (topicsLoop tokens).map PathState.topicsToTopicsOnPaths

/-- The function `GetTopicsToTopicsOnPaths`. -/
def GetTopicsToTopicsOnPaths (line : Str) : Except Fault (UMap (List Str)) :=
  topicsOfTokens (SplitString line)

/-! ## Question input -/

/-- The function `ParseQuestion`. -/
def ParseQuestion (line : Str) : Except Fault (Str × Str) := do
  let pos := find_first_of_space line
  let topic ← substr line 0 (toSize (pos - 1))
  let question ← substrFrom line (toSize (pos + 1))
  pure (topic, question)

/-- The function `GetTopicsToQuestions`. -/
def GetTopicsToQuestions (questions : List Str) : Except Fault (List (Str × Str)) :=
  questions.mapM ParseQuestion

/-- The body of the innermost loop of `GetPrefixToTopicToCount`: the entry of `topicOnPath`
under `pfx` is created with 0 when absent, then incremented.  Reading
`prefixesToTopicsToCounts[pfx]` creates an empty inner map when `pfx` is absent. -/
def bump (prefixesToTopicsToCounts : UMap (UMap Int)) (pfx topicOnPath : Str) :
    UMap (UMap Int) :=
  let inner := UMap.sub prefixesToTopicsToCounts pfx []
  let inner := if UMap.count inner topicOnPath = 0 then UMap.set inner topicOnPath 0 else inner
  let inner := UMap.set inner topicOnPath (UMap.sub inner topicOnPath 0 + 1)
  UMap.set prefixesToTopicsToCounts pfx inner

/-- The body of the loop over `prefixSize`: the ancestor list of the question's topic is
looked up with `at` (which throws for an unknown topic) and every topic on it is counted
under the prefix of that size. -/
def countPrefix (topicsToTopicsOnPaths : UMap (List Str)) (topicToQuestion : Str × Str)
    (tbl : UMap (UMap Int)) (prefixSize : Nat) : Except Fault (UMap (UMap Int)) := do
  let pfx ← substr topicToQuestion.2 0 prefixSize
  let path ← UMap.at topicsToTopicsOnPaths topicToQuestion.1
  pure (path.foldl (fun t topicOnPath => bump t pfx topicOnPath) tbl)

/-- The body of the loop over the questions: `prefixSize` runs from 1 to the size of the
question text. -/
def countQuestion (topicsToTopicsOnPaths : UMap (List Str)) (tbl : UMap (UMap Int))
    (topicToQuestion : Str × Str) : Except Fault (UMap (UMap Int)) :=
  (List.range' 1 topicToQuestion.2.length).foldlM
    (countPrefix topicsToTopicsOnPaths topicToQuestion) tbl

/-- The function `GetPrefixToTopicToCount`. -/
def GetPrefixToTopicToCount (topicsToQuestions : List (Str × Str))
    (topicsToTopicsOnPaths : UMap (List Str)) : Except Fault (UMap (UMap Int)) :=
  topicsToQuestions.foldlM (countQuestion topicsToTopicsOnPaths) []

/-! ## Query input -/

/-- The body of the loop of `GetTopicsAndQueries`. -/
def parseQuery (query : Str) : Except Fault (Str × Str) := do
  let pos := find_first_of_space query
  let topic ← substr query 0 (toSize pos)
  let text ← substrFrom query (toSize (pos + 1))
  pure (topic, text)

/-- The function `GetTopicsAndQueries`. -/
def GetTopicsAndQueries (queries : List Str) : Except Fault (List (Str × Str)) :=
  queries.mapM parseQuery

/-- The body of the loop of `SolveQueries`: the number printed for one query. -/
def solveQuery (prefixesToTopicsToCounts : UMap (UMap Int)) (topicAndQuery : Str × Str) :
    Except Fault Int :=
  if UMap.count prefixesToTopicsToCounts topicAndQuery.2 = 0 then
    pure 0
  else do
    let inner ← UMap.at prefixesToTopicsToCounts topicAndQuery.2
    if UMap.count inner topicAndQuery.1 = 0 then
      pure 0
    else do
      let inner ← UMap.at prefixesToTopicsToCounts topicAndQuery.2
      UMap.at inner topicAndQuery.1

/-- The function `SolveQueries`: the numbers printed, one per query, in order. -/
def SolveQueries (topicsAndQueries : List (Str × Str))
    (prefixesToTopicsToCounts : UMap (UMap Int)) : Except Fault (List Int) :=
  topicsAndQueries.mapM (solveQuery prefixesToTopicsToCounts)

/-- The function `main`, on the topic line, the question lines and the query lines that the
three `Read...Input` functions return: the numbers printed. -/
def main (line : Str) (questions queries : List Str) : Except Fault (List Int) := do
  let topicsToTopicsOnPaths ← GetTopicsToTopicsOnPaths line
  let topicsToQuestions ← GetTopicsToQuestions questions
  let prefixesToTopicsToCounts ← GetPrefixToTopicToCount topicsToQuestions topicsToTopicsOnPaths
  let topicsAndQueries ← GetTopicsAndQueries queries
  SolveQueries topicsAndQueries prefixesToTopicsToCounts

/-! ## Topic trees and the input format -/

/-- A rooted tree of topics: a name and the ordered list of the children. -/
inductive TopicTree where
  | node (name : Str) (children : List TopicTree)

/-- The name at the root. -/
def TopicTree.name : TopicTree → Str
  | .node a _ => a

mutual
/-- The flattened notation of a tree, as tokens: the name, followed by the notations of the
children between "(" and ")" when there are children. -/
def TopicTree.tokens : TopicTree → List Str
  | .node a [] => [a]
  | .node a (c :: cs) => a :: ['('] :: (TopicTree.tokensAll (c :: cs) ++ [[')']])
/-- The flattened notations of a list of trees, one after the other. -/
def TopicTree.tokensAll : List TopicTree → List Str
  | [] => []
  | c :: cs => c.tokens ++ TopicTree.tokensAll cs
end

mutual
/-- The names of a tree, in the order of the flattened notation. -/
def TopicTree.names : TopicTree → List Str
  | .node a cs => a :: TopicTree.namesAll cs
/-- The names of a list of trees. -/
def TopicTree.namesAll : List TopicTree → List Str
  | [] => []
  | c :: cs => c.names ++ TopicTree.namesAll cs
end

mutual
/-- The nodes of a tree, each with its subtree. -/
def TopicTree.subtrees : TopicTree → List TopicTree
  | .node a cs => .node a cs :: TopicTree.subtreesAll cs
/-- The nodes of a list of trees. -/
def TopicTree.subtreesAll : List TopicTree → List TopicTree
  | [] => []
  | c :: cs => c.subtrees ++ TopicTree.subtreesAll cs
end

mutual
/-- The ancestors of the topic `b` from the root downwards, ending with `b` itself; `none`
when `b` is not a name of the tree. -/
def TopicTree.pathTo : TopicTree → Str → Option (List Str)
  | .node a cs, b => if a = b then some [a] else (TopicTree.pathToAll cs b).map (fun p => a :: p)
/-- The path to `b` in the first tree of the list that has the name `b`. -/
def TopicTree.pathToAll : List TopicTree → Str → Option (List Str)
  | [], _ => none
  | c :: cs, b =>
    match c.pathTo b with
    | some p => some p
    | none => TopicTree.pathToAll cs b
end

mutual
/-- The assignments to the map that the flattened notation stands for, in order: every name
with the ancestor stack `anc` extended by the path down to the name. -/
def TopicTree.assignments (anc : List Str) : TopicTree → List (Str × List Str)
  | .node a cs => (a, anc ++ [a]) :: TopicTree.assignmentsAll (anc ++ [a]) cs
/-- The assignments of a list of trees. -/
def TopicTree.assignmentsAll (anc : List Str) : List TopicTree → List (Str × List Str)
  | [] => []
  | c :: cs => c.assignments anc ++ TopicTree.assignmentsAll anc cs
end

/-- The topic `a` is `b` or an ancestor of `b`: some node named `a` has `b` in its subtree. -/
def TopicTree.AncestorOrSelf (t : TopicTree) (a b : Str) : Prop :=
  ∃ s ∈ t.subtrees, s.name = a ∧ b ∈ s.names

instance (t : TopicTree) (a b : Str) : Decidable (t.AncestorOrSelf a b) := by
  unfold TopicTree.AncestorOrSelf
  infer_instance

/-- A topic name of the input format: non-empty, without whitespace, and neither "(" nor
")". -/
def ValidName (a : Str) : Prop :=
  a ≠ [] ∧ (∀ c ∈ a, isSpace c = false) ∧ a ≠ ['('] ∧ a ≠ [')']

instance (a : Str) : Decidable (ValidName a) := by
  unfold ValidName
  infer_instance

/-- A hierarchy of the input format: valid names, pairwise distinct. -/
def TopicTree.WellFormed (t : TopicTree) : Prop :=
  (∀ a ∈ t.names, ValidName a) ∧ t.names.Nodup

instance (t : TopicTree) : Decidable t.WellFormed := by
  unfold TopicTree.WellFormed
  infer_instance

/-- Words joined by single spaces. -/
def unwords : List Str → Str
  | [] => []
  | [w] => w
  | w :: w' :: ws => w ++ ' ' :: unwords (w' :: ws)

/-- The topic line of a tree: the tokens of its flattened notation, separated by spaces. -/
def TopicTree.line (t : TopicTree) : Str := unwords t.tokens

/-- The question line of a topic and a text: the name, a colon, a space, the text. -/
def questionLine (it : Str × Str) : Str := it.1 ++ ':' :: ' ' :: it.2

/-- The query line of a topic and a query text: the name, a space, the text. -/
def queryLine (tq : Str × Str) : Str := tq.1 ++ ' ' :: tq.2

/-- The assignments `m[k] = v` of a list, in order. -/
def setAll (m : UMap (List Str)) (l : List (Str × List Str)) : UMap (List Str) :=
  l.foldl (fun m e => UMap.set m e.1 e.2) m

/-- The number of questions whose topic is `topic` or a descendant of it and whose text
starts with `query`. -/
def matching (t : TopicTree) (items : List (Str × Str)) (topic query : Str) : Nat :=
  items.countP (fun it => decide (t.AncestorOrSelf topic it.1) && decide (query <+: it.2))

/-- The number `SolveQueries` prints for topic `topic` and query text `query`, read off the
table: the stored count, and 0 when either key is absent. -/
def answer (prefixesToTopicsToCounts : UMap (UMap Int)) (topic query : Str) : Int :=
  UMap.sub (UMap.sub prefixesToTopicsToCounts query []) topic 0

/-- The number of occurrences of a string in a list of strings. -/
def occurrences (x : Str) : List Str → Nat
  | [] => 0
  | a :: l => (if a = x then 1 else 0) + occurrences x l

/-- The ancestor list the map holds for a topic, empty when the topic is not a key. -/
def pathOf (topicsToTopicsOnPaths : UMap (List Str)) (topic : Str) : List Str :=
  UMap.sub topicsToTopicsOnPaths topic []

/-- The prefixes of a text of size 1 and more, shortest first. -/
def nonemptyPrefixes (text : Str) : List Str :=
  (List.range' 1 text.length).map (fun n => text.take n)

/-- The sum, over the items whose text starts with the non-empty `query`, of the number of
occurrences of `topic` in the ancestor list of the item's topic. -/
def tally (topicsToTopicsOnPaths : UMap (List Str)) (items : List (Str × Str))
    (topic query : Str) : Int :=
  (items.map (fun it =>
    if query ≠ [] ∧ query <+: it.2 then (occurrences topic (pathOf topicsToTopicsOnPaths it.1) : Int)
    else 0)).sum

/-- What one question adds to the table when the lookup of its topic does not throw: every
topic on the ancestor list is counted under every non-empty prefix of the text. -/
def addQuestion (topicsToTopicsOnPaths : UMap (List Str)) (tbl : UMap (UMap Int))
    (it : Str × Str) : UMap (UMap Int) :=
  (nonemptyPrefixes it.2).foldl
    (fun t p => (pathOf topicsToTopicsOnPaths it.1).foldl (fun t tp => bump t p tp) t) tbl

/-- The questions on which the lookup `at` of `GetPrefixToTopicToCount` does not throw: the
lookup is only reached when the text has a character. -/
def Accepted (topicsToTopicsOnPaths : UMap (List Str)) (it : Str × Str) : Prop :=
  it.2 = [] ∨ (UMap.find? topicsToTopicsOnPaths it.1).isSome = true

instance (m : UMap (List Str)) (it : Str × Str) : Decidable (Accepted m it) := by
  unfold Accepted
  infer_instance

/-! ## The sample of the source -/

/-- The hierarchy of the sample input. -/
def sampleTree : TopicTree :=
  .node "Animals".toList
    [.node "Reptiles".toList [],
     .node "Birds".toList
      [.node "Eagles".toList [], .node "Pigeons".toList [], .node "Crows".toList []]]

/-- The questions of the sample input, as topic and text. -/
def sampleItems : List (Str × Str) :=
  [("Reptiles".toList, "Why are many reptiles green?".toList),
   ("Birds".toList, "How do birds fly?".toList),
   ("Eagles".toList, "How endangered are eagles?".toList),
   ("Pigeons".toList, "Where in the world are pigeons most densely populated?".toList),
   ("Eagles".toList, "Where do most eagles live?".toList)]

/-- The queries of the sample input, as topic and query text. -/
def sampleQueries : List (Str × Str) :=
  [("Eagles".toList, "How en".toList), ("Birds".toList, "Where".toList),
   ("Reptiles".toList, "Why do".toList), ("Animals".toList, "Wh".toList)]

/-- A hierarchy of one topic. -/
def oneTopic : TopicTree := .node ['A'] []

/-- A hierarchy of a topic `A` with one child `B`. -/
def parentAndChild : TopicTree := .node ['A'] [.node ['B'] []]

/-- A hierarchy in which the name `B` is used twice: under `A` and under `C`. -/
def repeatedTopic : TopicTree := .node ['A'] [.node ['B'] [], .node ['C'] [.node ['B'] []]]

/-! ## Totals, safe runs and interval encodings -/

/-- The checks that the body of the loop of `GetTopicsToTopicsOnPaths` leaves out, at one
token: at a "(" the token before exists and is a topic name, at a ")" the ancestor stack
is not empty. -/
def stepSafe (st : PathState) (tok : Str) : Prop :=
  (tok = ['('] → ∃ a, st.previous = some a ∧ IsTopic a = true)
    ∧ (tok = [')'] → st.currentTopicsOnPath ≠ [])

/-- A run of the loop of `GetTopicsToTopicsOnPaths` from a state over the tokens in which
every step passes the checks and succeeds, and the ancestor stack is empty at the end. -/
def runSafe : PathState → List Str → Prop
  | st, [] => st.currentTopicsOnPath = []
  | st, tok :: rest => stepSafe st tok ∧ ∃ st', topicsStep st tok = .ok st' ∧ runSafe st' rest

/-- Every count stored in a table is at least 1. -/
def Positive (tbl : UMap (UMap Int)) : Prop :=
  ∀ p inner t c, UMap.find? tbl p = some inner → UMap.find? inner t = some c → 1 ≤ c

/-- Two integers `enter` and `exit`, read off what `GetTopicsToTopicsOnPaths` assigns to a
topic, encode every well-formed hierarchy by intervals: `a` is `b` or an ancestor of `b`
exactly when the `enter` of `b` lies between the `enter` and the `exit` of `a`. -/
def IntervalEncoding (enter exit : List Str → Int) : Prop :=
  ∀ t : TopicTree, t.WellFormed → ∀ m, GetTopicsToTopicsOnPaths t.line = .ok m →
    ∀ a b pa pb, UMap.find? m a = some pa → UMap.find? m b = some pb →
      (t.AncestorOrSelf a b ↔ enter pa ≤ enter pb ∧ enter pb ≤ exit pa)

/-- The name of the leaf number `i`: `x` repeated `i + 1` times. -/
def leafName (i : Nat) : Str := List.replicate (i + 1) 'x'

/-- The trees of one topic each, for a list of names. -/
def leaves (ns : List Str) : List TopicTree := ns.map (fun a => .node a [])

/-- The hierarchy of the topic `A` with `n` children without children. -/
def starTree (n : Nat) : TopicTree := .node ['A'] (leaves ((List.range n).map leafName))

/-! ## Facts about maps -/

theorem UMap.find?_set {β : Type} (m : UMap β) (k k' : Str) (v : β) :
    UMap.find? (UMap.set m k v) k' = if k = k' then some v else UMap.find? m k' := by
  induction m with
  | nil => simp [UMap.set, UMap.find?]
  | cons e m ih =>
    obtain ⟨k0, v0⟩ := e
    by_cases h0 : k0 = k
    · subst h0
      by_cases h1 : k0 = k' <;> simp [UMap.set, UMap.find?, h1]
    · by_cases h1 : k0 = k'
      · subst h1
        have h2 : ¬ k = k0 := fun h => h0 h.symm
        simp [UMap.set, UMap.find?, h0, h2]
      · simp [UMap.set, UMap.find?, h0, h1, ih]

theorem UMap.mem_keys_iff {β : Type} (m : UMap β) (k : Str) :
    k ∈ UMap.keys m ↔ (UMap.find? m k).isSome = true := by
  induction m with
  | nil => simp [UMap.keys, UMap.find?]
  | cons e m ih =>
    obtain ⟨k0, v0⟩ := e
    show k ∈ k0 :: UMap.keys m ↔ _
    rw [List.mem_cons, ih]
    by_cases h0 : k0 = k
    · simp [UMap.find?, h0]
    · have h1 : ¬ k = k0 := fun h => h0 h.symm
      simp [UMap.find?, h0, h1]

theorem UMap.mem_keys_set {β : Type} (m : UMap β) (k k' : Str) (v : β) :
    k' ∈ UMap.keys (UMap.set m k v) ↔ k' = k ∨ k' ∈ UMap.keys m := by
  rw [UMap.mem_keys_iff, UMap.mem_keys_iff, UMap.find?_set]
  by_cases h : k = k'
  · simp [h]
  · have h1 : ¬ k' = k := fun e => h e.symm
    simp [h, h1]

theorem UMap.sub_set {β : Type} (m : UMap β) (k k' : Str) (v d : β) :
    UMap.sub (UMap.set m k v) k' d = if k = k' then v else UMap.sub m k' d := by
  unfold UMap.sub
  rw [UMap.find?_set]
  split <;> rfl

/-- Creating an absent entry with the value 0 does not change what a read with default 0
returns. -/
theorem UMap.sub_ensure (m : UMap Int) (t k : Str) :
    UMap.sub (if UMap.count m t = 0 then UMap.set m t 0 else m) k 0 = UMap.sub m k 0 := by
  by_cases hc : UMap.count m t = 0
  · rw [if_pos hc, UMap.sub_set]
    by_cases ht : t = k
    · subst ht
      have hn : UMap.find? m t = none := by
        unfold UMap.count at hc
        cases h : UMap.find? m t <;> simp_all
      simp [UMap.sub, hn]
    · simp [ht]
  · rw [if_neg hc]

/-! ## Facts about the count table -/

theorem answer_bump (tbl : UMap (UMap Int)) (p t q topic : Str) :
    answer (bump tbl p t) topic q
      = answer tbl topic q + if q = p ∧ topic = t then 1 else 0 := by
  unfold answer bump
  simp only [UMap.sub_set]
  by_cases hq : p = q
  · subst hq
    by_cases ht : t = topic
    · subst ht
      simp [UMap.sub_set, UMap.sub_ensure]
    · have ht' : ¬ topic = t := fun e => ht e.symm
      simp [ht, ht', UMap.sub_set, UMap.sub_ensure]
  · have hq' : ¬ q = p := fun e => hq e.symm
    simp [hq, hq']

theorem mem_keys_bump (tbl : UMap (UMap Int)) (p t q : Str) :
    q ∈ UMap.keys (bump tbl p t) ↔ q = p ∨ q ∈ UMap.keys tbl := by
  unfold bump
  exact UMap.mem_keys_set _ _ _ _

theorem occurrences_eq_zero (x : Str) (l : List Str) (h : x ∉ l) : occurrences x l = 0 := by
  induction l with
  | nil => rfl
  | cons a l ih =>
    rw [List.mem_cons, not_or] at h
    have ha : ¬ a = x := fun e => h.1 e.symm
    simp [occurrences, ha, ih h.2]

theorem occurrences_pos (x : Str) (l : List Str) (h : x ∈ l) : 0 < occurrences x l := by
  induction l with
  | nil => simp at h
  | cons a l ih =>
    by_cases ha : a = x
    · simp [occurrences, ha]
    · rcases List.mem_cons.mp h with e | e
      · exact absurd e.symm ha
      · have := ih e
        simp only [occurrences]
        omega

theorem occurrences_of_nodup (x : Str) (l : List Str) (hl : l.Nodup) :
    occurrences x l = if x ∈ l then 1 else 0 := by
  induction l with
  | nil => simp [occurrences]
  | cons a l ih =>
    rw [List.nodup_cons] at hl
    by_cases ha : a = x
    · subst ha
      simp [occurrences, occurrences_eq_zero a l hl.1]
    · have ha' : ¬ x = a := fun e => ha e.symm
      simp [occurrences, ha, ha', ih hl.2]

theorem answer_foldl_bump (path : List Str) (tbl : UMap (UMap Int)) (p q topic : Str) :
    answer (path.foldl (fun t tp => bump t p tp) tbl) topic q
      = answer tbl topic q + if q = p then (occurrences topic path : Int) else 0 := by
  induction path generalizing tbl with
  | nil => simp [occurrences]
  | cons a path ih =>
    rw [List.foldl_cons, ih, answer_bump]
    by_cases hq : q = p
    · by_cases ha : a = topic
      · subst ha
        simp [hq, occurrences]
        ring
      · have ha' : ¬ topic = a := fun e => ha e.symm
        simp [hq, ha, ha', occurrences]
    · simp [hq]

theorem mem_keys_foldl_bump (path : List Str) (tbl : UMap (UMap Int)) (p q : Str) :
    q ∈ UMap.keys (path.foldl (fun t tp => bump t p tp) tbl)
      ↔ (q = p ∧ path ≠ []) ∨ q ∈ UMap.keys tbl := by
  induction path generalizing tbl with
  | nil => simp
  | cons a path ih =>
    rw [List.foldl_cons, ih, mem_keys_bump]
    have : a :: path ≠ [] := List.cons_ne_nil a path
    tauto

theorem mem_nonemptyPrefixes (text q : Str) :
    q ∈ nonemptyPrefixes text ↔ q ≠ [] ∧ q <+: text := by
  unfold nonemptyPrefixes
  simp only [List.mem_map, List.mem_range'_1]
  constructor
  · rintro ⟨n, ⟨h1, h2⟩, rfl⟩
    refine ⟨?_, List.take_prefix n text⟩
    intro h
    have := congrArg List.length h
    simp only [List.length_take, List.length_nil] at this
    omega
  · rintro ⟨hne, hpre⟩
    refine ⟨q.length, ⟨?_, ?_⟩, (List.prefix_iff_eq_take.mp hpre).symm⟩
    · cases q with
      | nil => exact absurd rfl hne
      | cons c q => simp
    · have := hpre.length_le
      omega

theorem nodup_nonemptyPrefixes (text : Str) : (nonemptyPrefixes text).Nodup := by
  unfold nonemptyPrefixes
  refine List.Nodup.map_on ?_ (List.nodup_range' 1 text.length)
  intro a ha b hb hab
  rw [List.mem_range'_1] at ha hb
  have := congrArg List.length hab
  simp at this
  omega

theorem occurrences_nonemptyPrefixes (text q : Str) :
    occurrences q (nonemptyPrefixes text) = if q ≠ [] ∧ q <+: text then 1 else 0 := by
  rw [occurrences_of_nodup q _ (nodup_nonemptyPrefixes text)]
  simp only [mem_nonemptyPrefixes]

/-- What a list of prefixes adds to the table, given the ancestor list of the topic. -/
theorem answer_foldl_prefixes (path : List Str) (ps : List Str) (tbl : UMap (UMap Int))
    (q topic : Str) :
    answer (ps.foldl (fun t p => path.foldl (fun t tp => bump t p tp) t) tbl) topic q
      = answer tbl topic q + (occurrences q ps : Int) * (occurrences topic path : Int) := by
  induction ps generalizing tbl with
  | nil => simp [occurrences]
  | cons p ps ih =>
    rw [List.foldl_cons, ih, answer_foldl_bump]
    by_cases hq : p = q
    · subst hq
      simp [occurrences]
      ring
    · have hq' : ¬ q = p := fun e => hq e.symm
      simp [hq, hq', occurrences]

theorem mem_keys_foldl_prefixes (path : List Str) (ps : List Str) (tbl : UMap (UMap Int))
    (q : Str) :
    q ∈ UMap.keys (ps.foldl (fun t p => path.foldl (fun t tp => bump t p tp) t) tbl)
      ↔ (q ∈ ps ∧ path ≠ []) ∨ q ∈ UMap.keys tbl := by
  induction ps generalizing tbl with
  | nil => simp
  | cons p ps ih =>
    rw [List.foldl_cons, ih, mem_keys_foldl_bump, List.mem_cons]
    tauto

theorem substr_zero (s : Str) (n : Nat) : substr s 0 n = .ok (s.take n) := by
  simp [substr]

theorem foldlM_ok {α β : Type} (f : β → α → Except Fault β) (g : β → α → β)
    (l : List α) (h : ∀ b a, a ∈ l → f b a = .ok (g b a)) (b : β) :
    l.foldlM f b = .ok (l.foldl g b) := by
  induction l generalizing b with
  | nil => rfl
  | cons a l ih =>
    rw [List.foldlM_cons, h b a (List.mem_cons_self a l)]
    exact ih (fun b x hx => h b x (List.mem_cons_of_mem a hx)) (g b a)

theorem countQuestion_of_accepted (m : UMap (List Str)) (tbl : UMap (UMap Int))
    (it : Str × Str) (h : Accepted m it) :
    countQuestion m tbl it = .ok (addQuestion m tbl it) := by
  unfold countQuestion addQuestion nonemptyPrefixes
  rw [List.foldl_map]
  apply foldlM_ok
  intro b n hn
  rcases h with h | h
  · rw [h] at hn
    simp at hn
  · unfold countPrefix pathOf UMap.sub UMap.at
    rw [substr_zero]
    cases hf : UMap.find? m it.1 with
    | none => rw [hf] at h; simp at h
    | some path => rfl

theorem countQuestion_of_not_accepted (m : UMap (List Str)) (tbl : UMap (UMap Int))
    (it : Str × Str) (h : ¬ Accepted m it) :
    countQuestion m tbl it = .error .outOfRange := by
  unfold Accepted at h
  rw [not_or] at h
  obtain ⟨h1, h2⟩ := h
  have hf : UMap.find? m it.1 = none := by
    cases hf : UMap.find? m it.1 with
    | none => rfl
    | some path => rw [hf] at h2; simp at h2
  unfold countQuestion
  cases ht : it.2 with
  | nil => exact absurd ht h1
  | cons c text =>
    have hr : List.range' 1 (c :: text).length = 1 :: List.range' 2 text.length := by
      simp [List.range'_succ]
    rw [hr, List.foldlM_cons]
    unfold countPrefix UMap.at
    rw [substr_zero, hf]
    rfl

/-- The function `GetPrefixToTopicToCount` from an arbitrary initial table. -/
theorem build_from (m : UMap (List Str)) (items : List (Str × Str)) (tbl : UMap (UMap Int)) :
    items.foldlM (countQuestion m) tbl
      = if ∀ it ∈ items, Accepted m it then .ok (items.foldl (addQuestion m) tbl)
        else .error .outOfRange := by
  induction items generalizing tbl with
  | nil => simp; rfl
  | cons it items ih =>
    rw [List.foldlM_cons]
    by_cases h : Accepted m it
    · rw [countQuestion_of_accepted m tbl it h]
      show items.foldlM (countQuestion m) (addQuestion m tbl it) = _
      rw [ih]
      simp only [List.forall_mem_cons, h, true_and, List.foldl_cons]
    · rw [countQuestion_of_not_accepted m tbl it h]
      simp only [List.forall_mem_cons, h, false_and, if_false]
      rfl

theorem build_eq (m : UMap (List Str)) (items : List (Str × Str)) :
    GetPrefixToTopicToCount items m
      = if ∀ it ∈ items, Accepted m it then .ok (items.foldl (addQuestion m) [])
        else .error .outOfRange :=
  build_from m items []

theorem answer_addQuestion (m : UMap (List Str)) (tbl : UMap (UMap Int)) (it : Str × Str)
    (topic q : Str) :
    answer (addQuestion m tbl it) topic q
      = answer tbl topic q
        + if q ≠ [] ∧ q <+: it.2 then (occurrences topic (pathOf m it.1) : Int) else 0 := by
  unfold addQuestion
  rw [answer_foldl_prefixes, occurrences_nonemptyPrefixes]
  by_cases h : q ≠ [] ∧ q <+: it.2
  · rw [if_pos h, if_pos h]; simp
  · rw [if_neg h, if_neg h]; simp

theorem answer_foldl_addQuestion (m : UMap (List Str)) (items : List (Str × Str))
    (tbl : UMap (UMap Int)) (topic q : Str) :
    answer (items.foldl (addQuestion m) tbl) topic q
      = answer tbl topic q + tally m items topic q := by
  induction items generalizing tbl with
  | nil => simp [tally]
  | cons it items ih =>
    rw [List.foldl_cons, ih, answer_addQuestion]
    simp only [tally, List.map_cons, List.sum_cons]
    ring

theorem mem_keys_foldl_addQuestion (m : UMap (List Str)) (items : List (Str × Str))
    (tbl : UMap (UMap Int)) (q : Str) :
    q ∈ UMap.keys (items.foldl (addQuestion m) tbl)
      ↔ (∃ it ∈ items, (q ≠ [] ∧ q <+: it.2) ∧ pathOf m it.1 ≠ []) ∨ q ∈ UMap.keys tbl := by
  induction items generalizing tbl with
  | nil => simp
  | cons it items ih =>
    rw [List.foldl_cons, ih]
    unfold addQuestion
    rw [mem_keys_foldl_prefixes, mem_nonemptyPrefixes]
    simp only [List.exists_mem_cons_iff]
    generalize (∃ x ∈ items, (q ≠ [] ∧ q <+: x.2) ∧ pathOf m x.1 ≠ []) = E
    tauto

theorem answer_nil (topic q : Str) : answer [] topic q = 0 := rfl

/-- The content of the table that `GetPrefixToTopicToCount` returns. -/
theorem answer_of_build (m : UMap (List Str)) (items : List (Str × Str))
    (tbl : UMap (UMap Int)) (h : GetPrefixToTopicToCount items m = .ok tbl)
    (topic q : Str) : answer tbl topic q = tally m items topic q := by
  rw [build_eq] at h
  split at h
  · injection h with h
    rw [← h, answer_foldl_addQuestion, answer_nil]
    simp
  · injection h

/-- The keys of the table that `GetPrefixToTopicToCount` returns. -/
theorem keys_of_build (m : UMap (List Str)) (items : List (Str × Str))
    (tbl : UMap (UMap Int)) (h : GetPrefixToTopicToCount items m = .ok tbl) (q : Str) :
    q ∈ UMap.keys tbl ↔ ∃ it ∈ items, (q ≠ [] ∧ q <+: it.2) ∧ pathOf m it.1 ≠ [] := by
  rw [build_eq] at h
  split at h
  · injection h with h
    rw [← h, mem_keys_foldl_addQuestion]
    simp [UMap.keys]
  · injection h

/-- The function `solveQuery` never throws: it returns the number read off the table. -/
theorem solveQuery_eq (tbl : UMap (UMap Int)) (tq : Str × Str) :
    solveQuery tbl tq = .ok (answer tbl tq.1 tq.2) := by
  unfold solveQuery answer UMap.count UMap.at UMap.sub
  cases h1 : UMap.find? tbl tq.2 with
  | none => rfl
  | some inner =>
    cases h2 : UMap.find? inner tq.1 with
    | none => simp [h2, bind, Except.bind, pure, Except.pure]
    | some c => simp [h2, bind, Except.bind]

theorem mapM_ok {α β : Type} (f : α → Except Fault β) (g : α → β) (l : List α)
    (h : ∀ a ∈ l, f a = .ok (g a)) : l.mapM f = .ok (l.map g) := by
  induction l with
  | nil => rfl
  | cons a l ih =>
    rw [List.mapM_cons, h a (List.mem_cons_self a l),
      ih (fun x hx => h x (List.mem_cons_of_mem a hx))]
    rfl

theorem mapM_map_ok {α β : Type} (f : β → Except Fault α) (g : α → β) (l : List α)
    (h : ∀ a ∈ l, f (g a) = .ok a) : (l.map g).mapM f = .ok l := by
  induction l with
  | nil => rfl
  | cons a l ih =>
    rw [List.map_cons, List.mapM_cons, h a (List.mem_cons_self a l),
      ih (fun x hx => h x (List.mem_cons_of_mem a hx))]
    rfl

theorem SolveQueries_eq (tbl : UMap (UMap Int)) (qs : List (Str × Str)) :
    SolveQueries qs tbl = .ok (qs.map (fun tq => answer tbl tq.1 tq.2)) :=
  mapM_ok _ _ qs (fun tq _ => solveQuery_eq tbl tq)

/-! ## Parsing the flattened notation -/

theorem IsTopic_of_valid (a : Str) (h : ValidName a) : IsTopic a = true := by
  obtain ⟨_, _, h1, h2⟩ := h
  simp [IsTopic, h1, h2]

theorem topicsStep_topic (st : PathState) (a : Str) (h : IsTopic a = true) :
    topicsStep st a
      = .ok { topicsToTopicsOnPaths :=
                UMap.set st.topicsToTopicsOnPaths a (st.currentTopicsOnPath ++ [a])
              currentTopicsOnPath := st.currentTopicsOnPath
              previous := some a } := by
  simp [topicsStep, h]

theorem topicsStep_open (st : PathState) (p : Str) (h : st.previous = some p) :
    topicsStep st ['(']
      = .ok { topicsToTopicsOnPaths := st.topicsToTopicsOnPaths
              currentTopicsOnPath := st.currentTopicsOnPath ++ [p]
              previous := some ['('] } := by
  have h1 : IsTopic ['('] = false := by decide
  simp [topicsStep, h1, h]

theorem topicsStep_close (st : PathState) (h : st.currentTopicsOnPath ≠ []) :
    topicsStep st [')']
      = .ok { topicsToTopicsOnPaths := st.topicsToTopicsOnPaths
              currentTopicsOnPath := st.currentTopicsOnPath.dropLast
              previous := some [')'] } := by
  have h1 : IsTopic [')'] = false := by decide
  have h2 : ¬ [')'] = ['('] := by decide
  cases hs : st.currentTopicsOnPath with
  | nil => exact absurd hs h
  | cons t ts => simp [topicsStep, h1, h2, hs]

theorem topicsStep_close_empty (st : PathState) (h : st.currentTopicsOnPath = []) :
    topicsStep st [')'] = .error .undefinedBehaviour := by
  have h1 : IsTopic [')'] = false := by decide
  have h2 : ¬ [')'] = ['('] := by decide
  simp [topicsStep, h1, h2, h]

theorem setAll_append (m : UMap (List Str)) (l l' : List (Str × List Str)) :
    setAll m (l ++ l') = setAll (setAll m l) l' := by
  simp [setAll]

mutual
/-- The loop over the notation of a tree performs the assignments of the tree and restores
the ancestor stack. -/
theorem parse_tree : ∀ (t : TopicTree) (m : UMap (List Str)) (anc : List Str)
    (prev : Option Str), (∀ a ∈ t.names, IsTopic a = true) →
    ∃ prev', t.tokens.foldlM topicsStep
        { topicsToTopicsOnPaths := m, currentTopicsOnPath := anc, previous := prev }
      = .ok { topicsToTopicsOnPaths := setAll m (t.assignments anc)
              currentTopicsOnPath := anc
              previous := some prev' }
  | .node a [], m, anc, prev, h => by
    have ha : IsTopic a = true := h a (by simp [TopicTree.names])
    refine ⟨a, ?_⟩
    simp only [TopicTree.tokens, List.foldlM_cons, List.foldlM_nil, topicsStep_topic _ a ha]
    rfl
  | .node a (c :: cs), m, anc, prev, h => by
    have ha : IsTopic a = true := h a (by simp [TopicTree.names])
    have hcs : ∀ x ∈ TopicTree.namesAll (c :: cs), IsTopic x = true := fun x hx =>
      h x (by simp only [TopicTree.names, List.mem_cons]; exact Or.inr hx)
    obtain ⟨prev', hp⟩ := parse_all (c :: cs) (UMap.set m a (anc ++ [a])) (anc ++ [a])
      (some ['(']) hcs
    refine ⟨[')'], ?_⟩
    simp only [TopicTree.tokens, List.foldlM_cons, List.foldlM_append, List.foldlM_nil,
      topicsStep_topic _ a ha]
    simp only [bind, Except.bind]
    rw [topicsStep_open _ a rfl]
    simp only [hp]
    rw [topicsStep_close _ (by simp)]
    simp [TopicTree.assignments, setAll, pure, Except.pure]
/-- The loop over the notations of a list of trees. -/
theorem parse_all : ∀ (ts : List TopicTree) (m : UMap (List Str)) (anc : List Str)
    (prev : Option Str), (∀ a ∈ TopicTree.namesAll ts, IsTopic a = true) →
    ∃ prev', (TopicTree.tokensAll ts).foldlM topicsStep
        { topicsToTopicsOnPaths := m, currentTopicsOnPath := anc, previous := prev }
      = .ok { topicsToTopicsOnPaths := setAll m (TopicTree.assignmentsAll anc ts)
              currentTopicsOnPath := anc
              previous := prev' }
  | [], m, anc, prev, _ => ⟨prev, rfl⟩
  | c :: cs, m, anc, prev, h => by
    have hc : ∀ x ∈ c.names, IsTopic x = true := fun x hx =>
      h x (by simp only [TopicTree.namesAll, List.mem_append]; exact Or.inl hx)
    have hcs : ∀ x ∈ TopicTree.namesAll cs, IsTopic x = true := fun x hx =>
      h x (by simp only [TopicTree.namesAll, List.mem_append]; exact Or.inr hx)
    obtain ⟨p1, h1⟩ := parse_tree c m anc prev hc
    obtain ⟨p2, h2⟩ := parse_all cs (setAll m (c.assignments anc)) anc (some p1) hcs
    refine ⟨p2, ?_⟩
    simp only [TopicTree.tokensAll, List.foldlM_append, h1]
    simp only [bind, Except.bind]
    rw [h2, TopicTree.assignmentsAll, setAll_append]
end

/-! ## Paths and subtrees -/

mutual
theorem pathTo_mem : ∀ (t : TopicTree) (b : Str) (p : List Str),
    t.pathTo b = some p → b ∈ t.names
  | .node a cs, b, p, h => by
    simp only [TopicTree.pathTo] at h
    simp only [TopicTree.names, List.mem_cons]
    by_cases hab : a = b
    · exact Or.inl hab.symm
    · rw [if_neg hab] at h
      cases hq : TopicTree.pathToAll cs b with
      | none => rw [hq] at h; simp at h
      | some q => exact Or.inr (pathToAll_mem cs b q hq)
theorem pathToAll_mem : ∀ (ts : List TopicTree) (b : Str) (p : List Str),
    TopicTree.pathToAll ts b = some p → b ∈ TopicTree.namesAll ts
  | [], b, p, h => by simp [TopicTree.pathToAll] at h
  | c :: cs, b, p, h => by
    simp only [TopicTree.pathToAll] at h
    simp only [TopicTree.namesAll, List.mem_append]
    cases hq : c.pathTo b with
    | some q => exact Or.inl (pathTo_mem c b q hq)
    | none =>
      rw [hq] at h
      exact Or.inr (pathToAll_mem cs b p h)
end

mutual
theorem pathTo_of_mem : ∀ (t : TopicTree) (b : Str), b ∈ t.names → ∃ p, t.pathTo b = some p
  | .node a cs, b, h => by
    simp only [TopicTree.names, List.mem_cons] at h
    simp only [TopicTree.pathTo]
    by_cases hab : a = b
    · exact ⟨[a], by rw [if_pos hab]⟩
    · rcases h with h | h
      · exact absurd h.symm hab
      · obtain ⟨q, hq⟩ := pathToAll_of_mem cs b h
        exact ⟨a :: q, by rw [if_neg hab, hq]; rfl⟩
theorem pathToAll_of_mem : ∀ (ts : List TopicTree) (b : Str), b ∈ TopicTree.namesAll ts →
    ∃ p, TopicTree.pathToAll ts b = some p
  | [], b, h => by simp [TopicTree.namesAll] at h
  | c :: cs, b, h => by
    simp only [TopicTree.namesAll, List.mem_append] at h
    simp only [TopicTree.pathToAll]
    cases hq : c.pathTo b with
    | some q => exact ⟨q, rfl⟩
    | none =>
      rcases h with h | h
      · obtain ⟨q, hq'⟩ := pathTo_of_mem c b h
        rw [hq] at hq'
        cases hq'
      · exact pathToAll_of_mem cs b h
end

theorem pathTo_eq_none (t : TopicTree) (b : Str) (h : b ∉ t.names) : t.pathTo b = none := by
  cases hq : t.pathTo b with
  | none => rfl
  | some q => exact absurd (pathTo_mem t b q hq) h

theorem pathToAll_eq_none (ts : List TopicTree) (b : Str) (h : b ∉ TopicTree.namesAll ts) :
    TopicTree.pathToAll ts b = none := by
  cases hq : TopicTree.pathToAll ts b with
  | none => rfl
  | some q => exact absurd (pathToAll_mem ts b q hq) h

mutual
/-- The value found under `b` after the assignments of a tree with distinct names. -/
theorem find?_assignments : ∀ (t : TopicTree) (m : UMap (List Str)) (anc : List Str) (b : Str),
    t.names.Nodup →
    UMap.find? (setAll m (t.assignments anc)) b
      = match t.pathTo b with
        | some p => some (anc ++ p)
        | none => UMap.find? m b
  | .node a cs, m, anc, b, h => by
    simp only [TopicTree.names, List.nodup_cons] at h
    have ih := find?_assignmentsAll cs (UMap.set m a (anc ++ [a])) (anc ++ [a]) b h.2
    have hs : setAll m ((TopicTree.node a cs).assignments anc)
        = setAll (UMap.set m a (anc ++ [a])) (TopicTree.assignmentsAll (anc ++ [a]) cs) := by
      simp [TopicTree.assignments, setAll]
    rw [hs, ih, UMap.find?_set]
    simp only [TopicTree.pathTo]
    by_cases hab : a = b
    · subst hab
      rw [pathToAll_eq_none cs a h.1]
      simp
    · cases hq : TopicTree.pathToAll cs b with
      | none => simp [hab]
      | some q => simp [hab]
/-- The value found under `b` after the assignments of a list of trees with distinct names. -/
theorem find?_assignmentsAll : ∀ (ts : List TopicTree) (m : UMap (List Str)) (anc : List Str)
    (b : Str), (TopicTree.namesAll ts).Nodup →
    UMap.find? (setAll m (TopicTree.assignmentsAll anc ts)) b
      = match TopicTree.pathToAll ts b with
        | some p => some (anc ++ p)
        | none => UMap.find? m b
  | [], m, anc, b, _ => by simp [TopicTree.assignmentsAll, TopicTree.pathToAll, setAll]
  | c :: cs, m, anc, b, h => by
    simp only [TopicTree.namesAll] at h
    have hd := List.nodup_append.mp h
    rw [TopicTree.assignmentsAll, setAll_append, find?_assignmentsAll cs _ anc b hd.2.1,
      find?_assignments c m anc b hd.1]
    simp only [TopicTree.pathToAll]
    cases hq : c.pathTo b with
    | none => rfl
    | some q =>
      have hb : b ∉ TopicTree.namesAll cs := fun hx => hd.2.2 (pathTo_mem c b q hq) hx
      rw [pathToAll_eq_none cs b hb]
end

mutual
theorem subtrees_names : ∀ (t s : TopicTree), s ∈ t.subtrees → ∀ x ∈ s.names, x ∈ t.names
  | .node a cs, s, h, x, hx => by
    simp only [TopicTree.subtrees, List.mem_cons] at h
    rcases h with h | h
    · rw [h] at hx; exact hx
    · simp only [TopicTree.names, List.mem_cons]
      exact Or.inr (subtreesAll_names cs s h x hx)
theorem subtreesAll_names : ∀ (ts : List TopicTree) (s : TopicTree),
    s ∈ TopicTree.subtreesAll ts → ∀ x ∈ s.names, x ∈ TopicTree.namesAll ts
  | [], s, h, x, hx => by simp [TopicTree.subtreesAll] at h
  | c :: cs, s, h, x, hx => by
    simp only [TopicTree.subtreesAll, List.mem_append] at h
    simp only [TopicTree.namesAll, List.mem_append]
    rcases h with h | h
    · exact Or.inl (subtrees_names c s h x hx)
    · exact Or.inr (subtreesAll_names cs s h x hx)
end

theorem exists_subtrees_node (r : Str) (cs : List TopicTree) (P : TopicTree → Prop) :
    (∃ s ∈ (TopicTree.node r cs).subtrees, P s)
      ↔ P (TopicTree.node r cs) ∨ ∃ s ∈ TopicTree.subtreesAll cs, P s := by
  simp only [TopicTree.subtrees, List.mem_cons]
  constructor
  · rintro ⟨s, hs | hs, h⟩
    · subst hs; exact Or.inl h
    · exact Or.inr ⟨s, hs, h⟩
  · rintro (h | ⟨s, hs, h⟩)
    · exact ⟨_, Or.inl rfl, h⟩
    · exact ⟨s, Or.inr hs, h⟩

mutual
/-- In a tree with distinct names the topics on the path to `b` are the names of the
nodes that have `b` in their subtree. -/
theorem mem_pathTo : ∀ (t : TopicTree) (a b : Str) (p : List Str), t.names.Nodup →
    t.pathTo b = some p → (a ∈ p ↔ ∃ s ∈ t.subtrees, s.name = a ∧ b ∈ s.names)
  | .node r cs, a, b, p, hn, hp => by
    simp only [TopicTree.names, List.nodup_cons] at hn
    simp only [TopicTree.pathTo] at hp
    rw [exists_subtrees_node]
    simp only [TopicTree.name, TopicTree.names, List.mem_cons]
    by_cases hrb : r = b
    · subst hrb
      rw [if_pos rfl] at hp
      injection hp with hp
      subst hp
      simp only [List.mem_singleton]
      constructor
      · intro h; exact Or.inl ⟨h.symm, by simp⟩
      · rintro (⟨h, _⟩ | ⟨s, hs, _, hb⟩)
        · exact h.symm
        · exact absurd (subtreesAll_names cs s hs r hb) hn.1
    · rw [if_neg hrb] at hp
      cases hq : TopicTree.pathToAll cs b with
      | none => rw [hq] at hp; simp at hp
      | some q =>
        rw [hq] at hp
        simp only [Option.map_some'] at hp
        injection hp with hp
        subst hp
        have ih := mem_pathToAll cs a b q hn.2 hq
        have hb : b ∈ TopicTree.namesAll cs := pathToAll_mem cs b q hq
        simp only [List.mem_cons, ih]
        constructor
        · rintro (h | h)
          · exact Or.inl ⟨h.symm, Or.inr hb⟩
          · exact Or.inr h
        · rintro (⟨h, _⟩ | h)
          · exact Or.inl h.symm
          · exact Or.inr h
theorem mem_pathToAll : ∀ (ts : List TopicTree) (a b : Str) (p : List Str),
    (TopicTree.namesAll ts).Nodup → TopicTree.pathToAll ts b = some p →
    (a ∈ p ↔ ∃ s ∈ TopicTree.subtreesAll ts, s.name = a ∧ b ∈ s.names)
  | [], a, b, p, _, hp => by simp [TopicTree.pathToAll] at hp
  | c :: cs, a, b, p, hn, hp => by
    simp only [TopicTree.namesAll] at hn
    have hd := List.nodup_append.mp hn
    simp only [TopicTree.pathToAll] at hp
    simp only [TopicTree.subtreesAll, List.mem_append]
    cases hq : c.pathTo b with
    | some q =>
      rw [hq] at hp
      injection hp with hp
      subst hp
      have hb : b ∈ c.names := pathTo_mem c b q hq
      rw [mem_pathTo c a b q hd.1 hq]
      constructor
      · rintro ⟨s, hs, h⟩
        exact ⟨s, Or.inl hs, h⟩
      · rintro ⟨s, hs | hs, h1, h2⟩
        · exact ⟨s, hs, h1, h2⟩
        · exact absurd (subtreesAll_names cs s hs b h2) (fun hx => hd.2.2 hb hx)
    | none =>
      rw [hq] at hp
      have hb : b ∈ TopicTree.namesAll cs := pathToAll_mem cs b p hp
      rw [mem_pathToAll cs a b p hd.2.1 hp]
      constructor
      · rintro ⟨s, hs, h⟩
        exact ⟨s, Or.inr hs, h⟩
      · rintro ⟨s, hs | hs, h1, h2⟩
        · exact absurd hb (fun hx => hd.2.2 (subtrees_names c s hs b h2) hx)
        · exact ⟨s, hs, h1, h2⟩
end

mutual
theorem pathTo_sublist : ∀ (t : TopicTree) (b : Str) (p : List Str),
    t.pathTo b = some p → p.Sublist t.names
  | .node r cs, b, p, hp => by
    simp only [TopicTree.pathTo] at hp
    simp only [TopicTree.names]
    by_cases hrb : r = b
    · rw [if_pos hrb] at hp
      injection hp with hp
      subst hp
      exact List.Sublist.cons₂ r (List.nil_sublist _)
    · rw [if_neg hrb] at hp
      cases hq : TopicTree.pathToAll cs b with
      | none => rw [hq] at hp; simp at hp
      | some q =>
        rw [hq] at hp
        simp only [Option.map_some'] at hp
        injection hp with hp
        subst hp
        exact List.Sublist.cons₂ r (pathToAll_sublist cs b q hq)
theorem pathToAll_sublist : ∀ (ts : List TopicTree) (b : Str) (p : List Str),
    TopicTree.pathToAll ts b = some p → p.Sublist (TopicTree.namesAll ts)
  | [], b, p, hp => by simp [TopicTree.pathToAll] at hp
  | c :: cs, b, p, hp => by
    simp only [TopicTree.pathToAll] at hp
    simp only [TopicTree.namesAll]
    cases hq : c.pathTo b with
    | some q =>
      rw [hq] at hp
      injection hp with hp
      subst hp
      exact (pathTo_sublist c b q hq).trans (List.sublist_append_left _ _)
    | none =>
      rw [hq] at hp
      exact (pathToAll_sublist cs b p hp).trans (List.sublist_append_right _ _)
end

/-! ## Reading the lines of the input format -/

theorem splitAux_word (w rest acc : Str) (h : ∀ c ∈ w, isSpace c = false) :
    splitAux (w ++ rest) acc = splitAux rest (w.reverse ++ acc) := by
  induction w generalizing acc with
  | nil => rfl
  | cons c w ih =>
    have hc : isSpace c = false := h c (List.mem_cons_self c w)
    have hw : ∀ x ∈ w, isSpace x = false := fun x hx => h x (List.mem_cons_of_mem c hx)
    show splitAux (c :: (w ++ rest)) acc = _
    rw [splitAux]
    simp only [hc, Bool.false_eq_true, if_false]
    rw [ih _ hw]
    simp

theorem SplitString_unwords : ∀ (ws : List Str),
    (∀ w ∈ ws, w ≠ [] ∧ ∀ c ∈ w, isSpace c = false) → SplitString (unwords ws) = ws
  | [], _ => rfl
  | [w], h => by
    obtain ⟨hne, hw⟩ := h w (List.mem_singleton_self w)
    have e : unwords [w] = w ++ [] := by simp [unwords]
    rw [SplitString, e, splitAux_word w [] [] hw]
    simp [splitAux, hne]
  | w :: w' :: ws, h => by
    obtain ⟨hne, hw⟩ := h w (List.mem_cons_self w _)
    have ih := SplitString_unwords (w' :: ws) (fun x hx => h x (List.mem_cons_of_mem w hx))
    have hsp : isSpace ' ' = true := by decide
    rw [SplitString] at ih ⊢
    rw [unwords, splitAux_word w _ [] hw, splitAux]
    simp only [hsp, if_true, List.append_nil, List.reverse_eq_nil_iff, hne, if_false,
      List.reverse_reverse, ih]

mutual
theorem tokens_words : ∀ (t : TopicTree), (∀ a ∈ t.names, ValidName a) →
    ∀ w ∈ t.tokens, w ≠ [] ∧ ∀ c ∈ w, isSpace c = false
  | .node a [], h, w, hw => by
    simp only [TopicTree.tokens, List.mem_singleton] at hw
    subst hw
    have := h w (by simp [TopicTree.names])
    exact ⟨this.1, this.2.1⟩
  | .node a (c :: cs), h, w, hw => by
    simp only [TopicTree.tokens, List.mem_cons, List.mem_append, List.mem_singleton,
      List.not_mem_nil, or_false] at hw
    rcases hw with hw | hw | hw | hw
    · subst hw
      have := h w (by simp [TopicTree.names])
      exact ⟨this.1, this.2.1⟩
    · subst hw; decide
    · exact tokensAll_words (c :: cs)
        (fun x hx => h x (by simp only [TopicTree.names, List.mem_cons]; exact Or.inr hx)) w hw
    · subst hw; decide
theorem tokensAll_words : ∀ (ts : List TopicTree),
    (∀ a ∈ TopicTree.namesAll ts, ValidName a) →
    ∀ w ∈ TopicTree.tokensAll ts, w ≠ [] ∧ ∀ c ∈ w, isSpace c = false
  | [], _, w, hw => by simp [TopicTree.tokensAll] at hw
  | c :: cs, h, w, hw => by
    simp only [TopicTree.tokensAll, List.mem_append] at hw
    rcases hw with hw | hw
    · exact tokens_words c
        (fun x hx => h x (by simp only [TopicTree.namesAll, List.mem_append]; exact Or.inl hx))
        w hw
    · exact tokensAll_words cs
        (fun x hx => h x (by simp only [TopicTree.namesAll, List.mem_append]; exact Or.inr hx))
        w hw
end

theorem spaceIndex_append (w rest : Str) (h : ' ' ∉ w) :
    spaceIndex (w ++ ' ' :: rest) = some w.length := by
  induction w with
  | nil => simp [spaceIndex]
  | cons c w ih =>
    rw [List.mem_cons, not_or] at h
    have hc : ¬ c = ' ' := fun e => h.1 e.symm
    simp [spaceIndex, hc, ih h.2]

theorem not_space_mem_of_valid (a : Str) (h : ValidName a) : ' ' ∉ a := by
  intro hm
  have := h.2.1 ' ' hm
  revert this
  decide

theorem toSize_natCast (n : Nat) : toSize (n : Int) = n := by
  simp [toSize]

theorem ParseQuestion_questionLine (it : Str × Str) (h : ' ' ∉ it.1) :
    ParseQuestion (questionLine it) = .ok it := by
  obtain ⟨name, text⟩ := it
  have e : questionLine (name, text) = (name ++ [':']) ++ ' ' :: text := by
    simp [questionLine]
  have hs : ' ' ∉ name ++ [':'] := by
    simp only [List.mem_append, List.mem_singleton, not_or]
    exact ⟨h, by decide⟩
  have hp : find_first_of_space (questionLine (name, text)) = ((name.length + 1 : Nat) : Int) := by
    rw [find_first_of_space, e, spaceIndex_append _ _ hs]
    simp
  have h1 : ((name.length + 1 : Nat) : Int) - 1 = (name.length : Nat) := by
    push_cast; ring
  have h2 : ((name.length + 1 : Nat) : Int) + 1 = ((name.length + 2 : Nat) : Int) := by
    push_cast; ring
  unfold ParseQuestion
  simp only [hp, h1, h2, toSize_natCast]
  have h3 : ¬ (text.length + 1 + 1 < 2) := by omega
  simp [substr, substrFrom, questionLine, bind, Except.bind, pure, Except.pure, h3]

theorem parseQuery_queryLine (tq : Str × Str) (h : ' ' ∉ tq.1) :
    parseQuery (queryLine tq) = .ok tq := by
  obtain ⟨name, text⟩ := tq
  have hp : find_first_of_space (queryLine (name, text)) = ((name.length : Nat) : Int) := by
    rw [find_first_of_space, queryLine, spaceIndex_append _ _ h]
  have h2 : ((name.length : Nat) : Int) + 1 = ((name.length + 1 : Nat) : Int) := by
    push_cast; ring
  unfold parseQuery
  simp only [hp, h2, toSize_natCast]
  simp [substr, substrFrom, queryLine, bind, Except.bind, pure, Except.pure]

/-! ## The map of a tree -/

/-- On the topic line of a tree with valid names, distinct or not, the function
`GetTopicsToTopicsOnPaths` performs the assignments of the tree. -/
theorem topics_of_tree (t : TopicTree) (h : ∀ a ∈ t.names, ValidName a) :
    GetTopicsToTopicsOnPaths t.line = .ok (setAll [] (t.assignments [])) := by
  unfold GetTopicsToTopicsOnPaths TopicTree.line
  rw [SplitString_unwords _ (tokens_words t h)]
  obtain ⟨prev', hp⟩ := parse_tree t [] [] none (fun a ha => IsTopic_of_valid a (h a ha))
  unfold topicsOfTokens topicsLoop
  rw [hp]
  rfl

mutual
theorem assignments_keys : ∀ (t : TopicTree) (anc : List Str),
    (t.assignments anc).map Prod.fst = t.names
  | .node a cs, anc => by
    simp only [TopicTree.assignments, TopicTree.names, List.map_cons]
    rw [assignmentsAll_keys cs (anc ++ [a])]
theorem assignmentsAll_keys : ∀ (ts : List TopicTree) (anc : List Str),
    (TopicTree.assignmentsAll anc ts).map Prod.fst = TopicTree.namesAll ts
  | [], anc => rfl
  | c :: cs, anc => by
    simp only [TopicTree.assignmentsAll, TopicTree.namesAll, List.map_append]
    rw [assignments_keys c anc, assignmentsAll_keys cs anc]
end

theorem mem_keys_setAll (m : UMap (List Str)) (l : List (Str × List Str)) (k : Str) :
    k ∈ UMap.keys (setAll m l) ↔ k ∈ UMap.keys m ∨ k ∈ l.map Prod.fst := by
  induction l generalizing m with
  | nil => simp [setAll]
  | cons e l ih =>
    have hs : setAll m (e :: l) = setAll (UMap.set m e.1 e.2) l := rfl
    rw [hs, ih, UMap.mem_keys_set, List.map_cons, List.mem_cons]
    tauto

/-- The map of a tree with distinct names holds, for every name, the path to it. -/
theorem find?_of_tree (t : TopicTree) (hn : t.names.Nodup) (b : Str) :
    UMap.find? (setAll [] (t.assignments [])) b = t.pathTo b := by
  rw [find?_assignments t [] [] b hn]
  cases t.pathTo b with
  | none => rfl
  | some p => simp

theorem pathOf_of_tree (t : TopicTree) (m : UMap (List Str))
    (hm : ∀ b, UMap.find? m b = t.pathTo b) (b : Str) :
    pathOf m b = (t.pathTo b).getD [] := by
  unfold pathOf UMap.sub
  rw [hm]

/-- In the map of a tree with distinct names a topic occurs once in the ancestor list of
its descendants and of itself, and in no other list. -/
theorem occurrences_of_tree (t : TopicTree) (m : UMap (List Str)) (hn : t.names.Nodup)
    (hm : ∀ b, UMap.find? m b = t.pathTo b) (a b : Str) :
    occurrences a (pathOf m b) = if t.AncestorOrSelf a b then 1 else 0 := by
  rw [pathOf_of_tree t m hm b]
  cases hp : t.pathTo b with
  | none =>
    have hno : ¬ t.AncestorOrSelf a b := by
      rintro ⟨s, hs, _, hb⟩
      obtain ⟨q, hq⟩ := pathTo_of_mem t b (subtrees_names t s hs b hb)
      rw [hp] at hq
      cases hq
    rw [if_neg hno]
    rfl
  | some p =>
    have hnd : p.Nodup := (pathTo_sublist t b p hp).nodup hn
    have hiff : a ∈ p ↔ t.AncestorOrSelf a b := mem_pathTo t a b p hn hp
    simp only [Option.getD_some]
    rw [occurrences_of_nodup a p hnd]
    by_cases hmem : a ∈ p
    · rw [if_pos hmem, if_pos (hiff.mp hmem)]
    · rw [if_neg hmem, if_neg (fun h => hmem (hiff.mpr h))]

/-- For a non-empty query text the table of a tree with distinct names counts the matching
questions. -/
theorem tally_eq_matching (t : TopicTree) (m : UMap (List Str)) (hn : t.names.Nodup)
    (hm : ∀ b, UMap.find? m b = t.pathTo b) (items : List (Str × Str)) (a q : Str)
    (hq : q ≠ []) : tally m items a q = (matching t items a q : Int) := by
  unfold tally matching
  induction items with
  | nil => simp
  | cons it items ih =>
    rw [List.map_cons, List.sum_cons, ih, List.countP_cons, occurrences_of_tree t m hn hm]
    by_cases h1 : q <+: it.2 <;> by_cases h2 : t.AncestorOrSelf a it.1 <;>
      simp [h1, h2, hq]
    ring

theorem accepted_of_declared (t : TopicTree) (m : UMap (List Str))
    (hm : ∀ b, UMap.find? m b = t.pathTo b) (items : List (Str × Str))
    (hi : ∀ it ∈ items, it.1 ∈ t.names) : ∀ it ∈ items, Accepted m it := by
  intro it hit
  obtain ⟨p, hp⟩ := pathTo_of_mem t it.1 (hi it hit)
  right
  rw [hm, hp]
  rfl

mutual
theorem pathTo_getLast : ∀ (t : TopicTree) (b : Str) (p : List Str),
    t.pathTo b = some p → p.getLast? = some b
  | .node r cs, b, p, hp => by
    simp only [TopicTree.pathTo] at hp
    by_cases hrb : r = b
    · rw [if_pos hrb] at hp
      injection hp with hp
      subst hp
      simp [hrb]
    · rw [if_neg hrb] at hp
      cases hq : TopicTree.pathToAll cs b with
      | none => rw [hq] at hp; simp at hp
      | some q =>
        rw [hq] at hp
        simp only [Option.map_some'] at hp
        injection hp with hp
        subst hp
        have ih := pathToAll_getLast cs b q hq
        cases q with
        | nil => simp at ih
        | cons x q => rw [List.getLast?_cons_cons]; exact ih
theorem pathToAll_getLast : ∀ (ts : List TopicTree) (b : Str) (p : List Str),
    TopicTree.pathToAll ts b = some p → p.getLast? = some b
  | [], b, p, hp => by simp [TopicTree.pathToAll] at hp
  | c :: cs, b, p, hp => by
    simp only [TopicTree.pathToAll] at hp
    cases hq : c.pathTo b with
    | some q =>
      rw [hq] at hp
      injection hp with hp
      subst hp
      exact pathTo_getLast c b q hq
    | none =>
      rw [hq] at hp
      exact pathToAll_getLast cs b p hp
end

theorem pathTo_head (t : TopicTree) (b : Str) (p : List Str) (hp : t.pathTo b = some p) :
    p.head? = some t.name := by
  cases t with
  | node r cs =>
    simp only [TopicTree.pathTo] at hp
    by_cases hrb : r = b
    · rw [if_pos hrb] at hp
      injection hp with hp
      subst hp
      rfl
    · rw [if_neg hrb] at hp
      cases hq : TopicTree.pathToAll cs b with
      | none => rw [hq] at hp; simp at hp
      | some q =>
        rw [hq] at hp
        simp only [Option.map_some'] at hp
        injection hp with hp
        subst hp
        rfl

/-- On a built table a query is answered 0 when no question that starts with the query text
has the queried topic on its ancestor list. -/
theorem zero_of_no_topic (m : UMap (List Str)) (items : List (Str × Str))
    (tbl : UMap (UMap Int)) (h : GetPrefixToTopicToCount items m = .ok tbl)
    (topic query : Str) (hno : ∀ it ∈ items, query <+: it.2 → topic ∉ pathOf m it.1) :
    SolveQueries [(topic, query)] tbl = .ok [0] := by
  rw [SolveQueries_eq]
  simp only [List.map_cons, List.map_nil]
  rw [answer_of_build m items tbl h]
  have h0 : tally m items topic query = 0 := by
    unfold tally
    apply List.sum_eq_zero
    intro x hx
    obtain ⟨it, hit, rfl⟩ := List.mem_map.mp hx
    by_cases hc : query ≠ [] ∧ query <+: it.2
    · rw [if_pos hc, occurrences_eq_zero topic _ (hno it hit hc.2)]
      rfl
    · rw [if_neg hc]
  rw [h0]

theorem find?_setAll_of_not_mem (m : UMap (List Str)) (l : List (Str × List Str)) (b : Str)
    (h : b ∉ l.map Prod.fst) : UMap.find? (setAll m l) b = UMap.find? m b := by
  induction l generalizing m with
  | nil => rfl
  | cons e l ih =>
    rw [List.map_cons, List.mem_cons, not_or] at h
    have hs : setAll m (e :: l) = setAll (UMap.set m e.1 e.2) l := rfl
    have he : ¬ e.1 = b := fun x => h.1 x.symm
    rw [hs, ih _ h.2, UMap.find?_set, if_neg he]

/-- After a list of assignments a key holds the value of its last assignment. -/
theorem find?_setAll_last (m : UMap (List Str)) (l1 l2 : List (Str × List Str)) (b : Str)
    (p : List Str) (h : b ∉ l2.map Prod.fst) :
    UMap.find? (setAll m (l1 ++ (b, p) :: l2)) b = some p := by
  have hs : setAll m (l1 ++ (b, p) :: l2) = setAll (UMap.set (setAll m l1) b p) l2 := by
    rw [setAll_append]
    rfl
  rw [hs, find?_setAll_of_not_mem _ l2 b h, UMap.find?_set, if_pos rfl]

theorem tally_nonneg (m : UMap (List Str)) (items : List (Str × Str)) (topic q : Str) :
    0 ≤ tally m items topic q := by
  unfold tally
  apply List.sum_nonneg
  intro x hx
  obtain ⟨it, _, rfl⟩ := List.mem_map.mp hx
  split
  · exact Int.natCast_nonneg _
  · exact le_refl 0

theorem accepted_of_build (m : UMap (List Str)) (items : List (Str × Str))
    (tbl : UMap (UMap Int)) (h : GetPrefixToTopicToCount items m = .ok tbl) :
    ∀ it ∈ items, Accepted m it := by
  rw [build_eq] at h
  split at h
  · assumption
  · injection h

/-- Every ancestor list that the loop of `GetTopicsToTopicsOnPaths` stores is non-empty: it
ends with the topic it is stored under. -/
theorem topicsStep_lists_nonempty (st st' : PathState) (tok : Str)
    (h : topicsStep st tok = .ok st')
    (hst : ∀ k p, UMap.find? st.topicsToTopicsOnPaths k = some p → p ≠ []) :
    ∀ k p, UMap.find? st'.topicsToTopicsOnPaths k = some p → p ≠ [] := by
  unfold topicsStep at h
  split at h
  · injection h with h
    subst h
    intro k p hk
    simp only [UMap.find?_set] at hk
    split at hk
    · injection hk with hk
      subst hk
      simp
    · exact hst k p hk
  · split at h
    · split at h
      · injection h
      · injection h with h
        subst h
        exact hst
    · split at h
      · injection h
      · injection h with h
        subst h
        exact hst

theorem foldlM_lists_nonempty (tokens : List Str) (st st' : PathState)
    (h : tokens.foldlM topicsStep st = .ok st')
    (hst : ∀ k p, UMap.find? st.topicsToTopicsOnPaths k = some p → p ≠ []) :
    ∀ k p, UMap.find? st'.topicsToTopicsOnPaths k = some p → p ≠ [] := by
  induction tokens generalizing st with
  | nil =>
    injection h with h
    subst h
    exact hst
  | cons tok tokens ih =>
    rw [List.foldlM_cons] at h
    cases hs : topicsStep st tok with
    | error e => rw [hs] at h; injection h
    | ok st1 =>
      rw [hs] at h
      exact ih st1 h (topicsStep_lists_nonempty st st1 tok hs hst)

/-- No map that `GetTopicsToTopicsOnPaths` returns holds an empty ancestor list. -/
theorem topics_lists_nonempty (line : Str) (m : UMap (List Str))
    (h : GetTopicsToTopicsOnPaths line = .ok m) :
    ∀ k p, UMap.find? m k = some p → p ≠ [] := by
  unfold GetTopicsToTopicsOnPaths topicsOfTokens topicsLoop at h
  cases hs : (SplitString line).foldlM topicsStep
      { topicsToTopicsOnPaths := [], currentTopicsOnPath := [], previous := none } with
  | error e => rw [hs] at h; injection h
  | ok st =>
    rw [hs] at h
    injection h with h
    subst h
    exact foldlM_lists_nonempty _ _ st hs (fun k p hk => by simp [UMap.find?] at hk)

/-! ## Children and subtrees -/

theorem self_mem_subtrees (t : TopicTree) : t ∈ t.subtrees := by
  cases t with
  | node r cs => simp [TopicTree.subtrees]

theorem mem_subtreesAll_of_mem (cs : List TopicTree) (c : TopicTree) (h : c ∈ cs) :
    c ∈ TopicTree.subtreesAll cs := by
  induction cs with
  | nil => simp at h
  | cons d cs ih =>
    simp only [TopicTree.subtreesAll, List.mem_append]
    rcases List.mem_cons.mp h with e | e
    · left; rw [e]; exact self_mem_subtrees d
    · right; exact ih e

mutual
theorem subtrees_trans : ∀ (t s s' : TopicTree), s ∈ t.subtrees → s' ∈ s.subtrees →
    s' ∈ t.subtrees
  | .node a cs, s, s', h, h' => by
    simp only [TopicTree.subtrees, List.mem_cons] at h
    rcases h with h | h
    · rw [h] at h'; exact h'
    · simp only [TopicTree.subtrees, List.mem_cons]
      exact Or.inr (subtreesAll_trans cs s s' h h')
theorem subtreesAll_trans : ∀ (ts : List TopicTree) (s s' : TopicTree),
    s ∈ TopicTree.subtreesAll ts → s' ∈ s.subtrees → s' ∈ TopicTree.subtreesAll ts
  | [], s, s', h, _ => by simp [TopicTree.subtreesAll] at h
  | c :: cs, s, s', h, h' => by
    simp only [TopicTree.subtreesAll, List.mem_append] at h ⊢
    rcases h with h | h
    · exact Or.inl (subtrees_trans c s s' h h')
    · exact Or.inr (subtreesAll_trans cs s s' h h')
end

mutual
theorem subtrees_map_name : ∀ (t : TopicTree), t.subtrees.map TopicTree.name = t.names
  | .node a cs => by
    simp only [TopicTree.subtrees, TopicTree.names, List.map_cons, TopicTree.name]
    rw [subtreesAll_map_name cs]
theorem subtreesAll_map_name : ∀ (ts : List TopicTree),
    (TopicTree.subtreesAll ts).map TopicTree.name = TopicTree.namesAll ts
  | [] => rfl
  | c :: cs => by
    simp only [TopicTree.subtreesAll, TopicTree.namesAll, List.map_append]
    rw [subtrees_map_name c, subtreesAll_map_name cs]
end

mutual
theorem subtrees_names_sublist : ∀ (t s : TopicTree), s ∈ t.subtrees →
    s.names.Sublist t.names
  | .node a cs, s, h => by
    simp only [TopicTree.subtrees, List.mem_cons] at h
    rcases h with h | h
    · rw [h]
    · simp only [TopicTree.names]
      exact (subtreesAll_names_sublist cs s h).trans (List.sublist_cons_self a _)
theorem subtreesAll_names_sublist : ∀ (ts : List TopicTree) (s : TopicTree),
    s ∈ TopicTree.subtreesAll ts → s.names.Sublist (TopicTree.namesAll ts)
  | [], s, h => by simp [TopicTree.subtreesAll] at h
  | c :: cs, s, h => by
    simp only [TopicTree.subtreesAll, List.mem_append] at h
    simp only [TopicTree.namesAll]
    rcases h with h | h
    · exact (subtrees_names_sublist c s h).trans (List.sublist_append_left _ _)
    · exact (subtreesAll_names_sublist cs s h).trans (List.sublist_append_right _ _)
end

/-- In a tree with distinct names a node is determined by its name. -/
theorem subtree_unique (t s s' : TopicTree) (hn : t.names.Nodup) (hs : s ∈ t.subtrees)
    (hs' : s' ∈ t.subtrees) (h : s.name = s'.name) : s = s' := by
  rw [← subtrees_map_name t] at hn
  exact List.inj_on_of_nodup_map hn hs hs' h

/-- In a tree with distinct names the descendants of a node, the node included, are the
names of its subtree. -/
theorem ancestorOrSelf_iff (t s : TopicTree) (hn : t.names.Nodup) (hs : s ∈ t.subtrees)
    (b : Str) : t.AncestorOrSelf s.name b ↔ b ∈ s.names := by
  constructor
  · rintro ⟨s', hs', he, hb⟩
    rw [← subtree_unique t s' s hn hs' hs he]
    exact hb
  · intro hb
    exact ⟨s, hs, rfl, hb⟩

/-- A name of a list of trees with distinct names lies in exactly one of the trees. -/
theorem sum_mem_names (cs : List TopicTree) (b : Str) (hn : (TopicTree.namesAll cs).Nodup) :
    (cs.map (fun c => if b ∈ c.names then 1 else 0)).sum
      = if b ∈ TopicTree.namesAll cs then 1 else 0 := by
  induction cs with
  | nil => simp [TopicTree.namesAll]
  | cons c cs ih =>
    simp only [TopicTree.namesAll] at hn ⊢
    have hd := List.nodup_append.mp hn
    rw [List.map_cons, List.sum_cons, ih hd.2.1]
    by_cases h1 : b ∈ c.names
    · have h2 : b ∉ TopicTree.namesAll cs := fun hx => hd.2.2 h1 hx
      simp [h1, h2]
    · simp [h1]

/-- In a tree with distinct names a topic lies in the subtree of a node exactly when it is
the node or lies in the subtree of exactly one child. -/
theorem indicator_children (t : TopicTree) (r : Str) (cs : List TopicTree) (b : Str)
    (hn : t.names.Nodup) (hs : TopicTree.node r cs ∈ t.subtrees) :
    (if t.AncestorOrSelf r b then 1 else 0)
      = (if b = r then 1 else 0)
        + (cs.map (fun c => if t.AncestorOrSelf c.name b then 1 else 0)).sum := by
  have hsub : ((TopicTree.node r cs).names).Nodup :=
    (subtrees_names_sublist t _ hs).nodup hn
  simp only [TopicTree.names, List.nodup_cons] at hsub
  have h1 : t.AncestorOrSelf r b ↔ b = r ∨ b ∈ TopicTree.namesAll cs := by
    have := ancestorOrSelf_iff t (TopicTree.node r cs) hn hs b
    simpa [TopicTree.name, TopicTree.names] using this
  have h2 : cs.map (fun c => if t.AncestorOrSelf c.name b then 1 else 0)
      = cs.map (fun c => if b ∈ c.names then 1 else 0) := by
    apply List.map_congr_left
    intro c hc
    have hc' : c ∈ t.subtrees :=
      subtrees_trans t _ c hs (by
        simp only [TopicTree.subtrees, List.mem_cons]
        exact Or.inr (mem_subtreesAll_of_mem cs c hc))
    simp only [ancestorOrSelf_iff t c hn hc' b]
  rw [h2, sum_mem_names cs b hsub.2]
  by_cases hb : b = r
  · subst hb
    simp [h1, hsub.1]
  · by_cases hc : b ∈ TopicTree.namesAll cs <;> simp [h1, hb, hc]

theorem matching_cons (t : TopicTree) (it : Str × Str) (items : List (Str × Str))
    (a q : Str) :
    matching t (it :: items) a q
      = matching t items a q + if t.AncestorOrSelf a it.1 ∧ q <+: it.2 then 1 else 0 := by
  unfold matching
  rw [List.countP_cons]
  by_cases h1 : t.AncestorOrSelf a it.1 <;> by_cases h2 : q <+: it.2 <;> simp [h1, h2]

/-- The matching questions of a node are its own and those of its children. -/
theorem matching_children (t : TopicTree) (r : Str) (cs : List TopicTree)
    (items : List (Str × Str)) (q : Str) (hn : t.names.Nodup)
    (hs : TopicTree.node r cs ∈ t.subtrees) :
    matching t items r q
      = items.countP (fun it => decide (it.1 = r) && decide (q <+: it.2))
        + (cs.map (fun c => matching t items c.name q)).sum := by
  induction items with
  | nil => simp [matching]
  | cons it items ih =>
    have hsum : (cs.map (fun c => matching t (it :: items) c.name q)).sum
        = (cs.map (fun c => matching t items c.name q)).sum
          + (cs.map (fun c =>
              if t.AncestorOrSelf c.name it.1 ∧ q <+: it.2 then 1 else 0)).sum := by
      rw [← List.sum_map_add]
      congr 1
      apply List.map_congr_left
      intro c _
      exact matching_cons t it items c.name q
    have hind := indicator_children t r cs it.1 hn hs
    rw [hsum, matching_cons, ih, List.countP_cons]
    by_cases hq : q <+: it.2
    · simp only [hq, and_true, decide_True, Bool.and_true, decide_eq_true_eq]
      rw [hind]
      ring
    · simp [hq]

theorem tally_nil_query (m : UMap (List Str)) (items : List (Str × Str)) (topic : Str) :
    tally m items topic [] = 0 := by
  unfold tally
  apply List.sum_eq_zero
  intro x hx
  obtain ⟨it, _, rfl⟩ := List.mem_map.mp hx
  simp

/-- The program on the lines of a tree with valid, pairwise distinct names, of questions with
declared topics and of queries whose topics have no space: every query is answered from the
table of the tree. -/
theorem main_of_tree (t : TopicTree) (items queries : List (Str × Str))
    (hv : ∀ a ∈ t.names, ValidName a) (hn : t.names.Nodup)
    (hi : ∀ it ∈ items, it.1 ∈ t.names) (hq : ∀ tq ∈ queries, ' ' ∉ tq.1) :
    main t.line (items.map questionLine) (queries.map queryLine)
      = .ok (queries.map
          (fun tq => tally (setAll [] (t.assignments [])) items tq.1 tq.2)) := by
  have hm := find?_of_tree t hn
  have h1 := topics_of_tree t hv
  have h2 : GetTopicsToQuestions (items.map questionLine) = .ok items :=
    mapM_map_ok ParseQuestion questionLine items
      (fun it hit => ParseQuestion_questionLine it
        (not_space_mem_of_valid it.1 (hv it.1 (hi it hit))))
  have h3 := build_eq (setAll [] (t.assignments [])) items
  rw [if_pos (accepted_of_declared t _ hm items hi)] at h3
  have h4 : GetTopicsAndQueries (queries.map queryLine) = .ok queries :=
    mapM_map_ok parseQuery queryLine queries
      (fun tq htq => parseQuery_queryLine tq (hq tq htq))
  unfold main
  rw [h1, h2, h4]
  simp only [bind, Except.bind]
  rw [h3]
  simp only []
  rw [SolveQueries_eq]
  congr 1
  apply List.map_congr_left
  intro tq _
  rw [answer_of_build _ items _ h3]

theorem name_mem_of_subtree (t s : TopicTree) (hs : s ∈ t.subtrees) : s.name ∈ t.names := by
  rw [← subtrees_map_name t]
  exact List.mem_map_of_mem TopicTree.name hs

theorem not_accepted_iff (m : UMap (List Str)) (it : Str × Str) :
    ¬ Accepted m it ↔ it.2 ≠ [] ∧ it.1 ∉ UMap.keys m := by
  unfold Accepted
  rw [not_or, UMap.mem_keys_iff]

/-! ## The total of the counts -/

theorem table_of_build (m : UMap (List Str)) (items : List (Str × Str))
    (tbl : UMap (UMap Int)) (h : GetPrefixToTopicToCount items m = .ok tbl) :
    tbl = items.foldl (addQuestion m) [] := by
  rw [build_eq] at h
  split at h
  · injection h with h
    exact h.symm
  · injection h

/-! ## Safety of the loop on a flattened notation -/

theorem stepSafe_topic (st : PathState) (a : Str) (h : IsTopic a = true) : stepSafe st a := by
  constructor
  · intro e
    rw [e] at h
    exact absurd h (by decide)
  · intro e
    rw [e] at h
    exact absurd h (by decide)

mutual
/-- A safe run over what follows the notation of a tree, from every state with the same
ancestor stack, gives a safe run over the notation and what follows. -/
theorem runSafe_tree : ∀ (t : TopicTree) (rest : List Str) (stack : List Str),
    (∀ a ∈ t.names, IsTopic a = true) →
    (∀ st' : PathState, st'.currentTopicsOnPath = stack → runSafe st' rest) →
    ∀ st : PathState, st.currentTopicsOnPath = stack → runSafe st (t.tokens ++ rest)
  | .node a [], rest, stack, h, k, st, hst => by
    have ha : IsTopic a = true := h a (by simp [TopicTree.names])
    simp only [TopicTree.tokens, List.singleton_append, runSafe]
    refine ⟨stepSafe_topic st a ha, _, topicsStep_topic st a ha, k _ hst⟩
  | .node a (c :: cs), rest, stack, h, k, st, hst => by
    have ha : IsTopic a = true := h a (by simp [TopicTree.names])
    have hcs : ∀ x ∈ TopicTree.namesAll (c :: cs), IsTopic x = true := fun x hx =>
      h x (by simp only [TopicTree.names, List.mem_cons]; exact Or.inr hx)
    have e : (TopicTree.node a (c :: cs)).tokens ++ rest
        = a :: ['('] :: (TopicTree.tokensAll (c :: cs) ++ ([')'] :: rest)) := by
      simp [TopicTree.tokens]
    rw [e]
    simp only [runSafe]
    refine ⟨stepSafe_topic st a ha, _, topicsStep_topic st a ha, ?_⟩
    refine ⟨⟨fun _ => ⟨a, rfl, ha⟩, fun e => absurd e (by decide)⟩, _,
      topicsStep_open _ a rfl, ?_⟩
    apply runSafe_all (c :: cs) ([')'] :: rest) (stack ++ [a]) hcs
    · intro st' hst'
      simp only [runSafe]
      have hne : st'.currentTopicsOnPath ≠ [] := by rw [hst']; simp
      refine ⟨⟨fun e => absurd e (by decide), fun _ => hne⟩, _, topicsStep_close st' hne, ?_⟩
      apply k
      show st'.currentTopicsOnPath.dropLast = stack
      rw [hst', List.dropLast_concat]
    · show st.currentTopicsOnPath ++ [a] = stack ++ [a]
      rw [hst]
/-- The same for the notations of a list of trees. -/
theorem runSafe_all : ∀ (ts : List TopicTree) (rest : List Str) (stack : List Str),
    (∀ a ∈ TopicTree.namesAll ts, IsTopic a = true) →
    (∀ st' : PathState, st'.currentTopicsOnPath = stack → runSafe st' rest) →
    ∀ st : PathState, st.currentTopicsOnPath = stack →
      runSafe st (TopicTree.tokensAll ts ++ rest)
  | [], rest, stack, _, k, st, hst => by
    simp only [TopicTree.tokensAll, List.nil_append]
    exact k st hst
  | c :: cs, rest, stack, h, k, st, hst => by
    have hc : ∀ x ∈ c.names, IsTopic x = true := fun x hx =>
      h x (by simp only [TopicTree.namesAll, List.mem_append]; exact Or.inl hx)
    have hcs : ∀ x ∈ TopicTree.namesAll cs, IsTopic x = true := fun x hx =>
      h x (by simp only [TopicTree.namesAll, List.mem_append]; exact Or.inr hx)
    simp only [TopicTree.tokensAll, List.append_assoc]
    exact runSafe_tree c _ stack hc (fun st' hst' => runSafe_all cs rest stack hcs k st' hst')
      st hst
end

/-! ## Bounds on the counts -/

theorem sub_nonneg_of_positive (tbl : UMap (UMap Int)) (h : Positive tbl) (p t : Str) :
    0 ≤ UMap.sub (UMap.sub tbl p []) t 0 := by
  unfold UMap.sub
  cases h1 : UMap.find? tbl p with
  | none => simp [UMap.find?]
  | some inner =>
    cases h2 : UMap.find? inner t with
    | none => simp [h2]
    | some c =>
      have := h p inner t c h1 h2
      simp only [Option.getD_some, h2]
      omega

theorem positive_bump (tbl : UMap (UMap Int)) (h : Positive tbl) (p0 t0 : Str) :
    Positive (bump tbl p0 t0) := by
  intro p inner t c h1 h2
  unfold bump at h1
  rw [UMap.find?_set] at h1
  by_cases hp : p0 = p
  · rw [if_pos hp] at h1
    injection h1 with h1
    subst h1
    rw [UMap.find?_set] at h2
    by_cases ht : t0 = t
    · rw [if_pos ht] at h2
      injection h2 with h2
      rw [UMap.sub_ensure] at h2
      have := sub_nonneg_of_positive tbl h p0 t0
      omega
    · rw [if_neg ht] at h2
      have h3 : UMap.find? (UMap.sub tbl p0 []) t = some c := by
        by_cases hc : UMap.count (UMap.sub tbl p0 []) t0 = 0
        · rw [if_pos hc, UMap.find?_set, if_neg ht] at h2
          exact h2
        · rw [if_neg hc] at h2
          exact h2
      unfold UMap.sub at h3
      cases h4 : UMap.find? tbl p0 with
      | none => rw [h4] at h3; simp [UMap.find?] at h3
      | some inner0 =>
        rw [h4] at h3
        exact h p0 inner0 t c h4 h3
  · rw [if_neg hp] at h1
    exact h p inner t c h1 h2

theorem positive_foldl_bump (path : List Str) (tbl : UMap (UMap Int)) (h : Positive tbl)
    (p : Str) : Positive (path.foldl (fun t tp => bump t p tp) tbl) := by
  induction path generalizing tbl with
  | nil => exact h
  | cons a path ih => exact ih _ (positive_bump tbl h p a)

theorem positive_foldl_prefixes (path ps : List Str) (tbl : UMap (UMap Int))
    (h : Positive tbl) :
    Positive (ps.foldl (fun t p => path.foldl (fun t tp => bump t p tp) t) tbl) := by
  induction ps generalizing tbl with
  | nil => exact h
  | cons p ps ih => exact ih _ (positive_foldl_bump path tbl h p)

theorem positive_foldl_addQuestion (m : UMap (List Str)) (items : List (Str × Str))
    (tbl : UMap (UMap Int)) (h : Positive tbl) :
    Positive (items.foldl (addQuestion m) tbl) := by
  induction items generalizing tbl with
  | nil => exact h
  | cons it items ih => exact ih _ (positive_foldl_prefixes _ _ tbl h)

/-- Every count stored in a table that `GetPrefixToTopicToCount` returned is at least 1. -/
theorem positive_of_build (m : UMap (List Str)) (items : List (Str × Str))
    (tbl : UMap (UMap Int)) (h : GetPrefixToTopicToCount items m = .ok tbl) :
    Positive tbl := by
  rw [table_of_build m items tbl h]
  apply positive_foldl_addQuestion
  intro p inner t c h1
  simp [UMap.find?] at h1

/-- When no ancestor list repeats a topic, no answer exceeds the number of questions. -/
theorem tally_le_length (m : UMap (List Str)) (items : List (Str × Str)) (topic q : Str)
    (h : ∀ b, occurrences topic (pathOf m b) ≤ 1) :
    tally m items topic q ≤ items.length := by
  unfold tally
  induction items with
  | nil => simp
  | cons it items ih =>
    rw [List.map_cons, List.sum_cons, List.length_cons]
    have h1 : (if q ≠ [] ∧ q <+: it.2 then (occurrences topic (pathOf m it.1) : Int) else 0)
        ≤ 1 := by
      split
      · exact_mod_cast h it.1
      · decide
    push_cast
    omega

theorem occurrences_le_one_of_tree (t : TopicTree) (m : UMap (List Str)) (hn : t.names.Nodup)
    (hm : ∀ b, UMap.find? m b = t.pathTo b) (a b : Str) :
    occurrences a (pathOf m b) ≤ 1 := by
  rw [occurrences_of_tree t m hn hm]
  split <;> decide

theorem stored_eq_answer (tbl : UMap (UMap Int)) (p t : Str) (inner : UMap Int) (c : Int)
    (h1 : UMap.find? tbl p = some inner) (h2 : UMap.find? inner t = some c) :
    answer tbl t p = c := by
  simp [answer, UMap.sub, h1, h2]

/-! ## Lines without a space -/

theorem spaceIndex_eq_none (line : Str) (h : ' ' ∉ line) : spaceIndex line = none := by
  induction line with
  | nil => rfl
  | cons c line ih =>
    rw [List.mem_cons, not_or] at h
    have hc : ¬ c = ' ' := fun e => h.1 e.symm
    simp [spaceIndex, hc, ih h.2]

theorem toSize_neg_two : toSize (-1 - 1) = 2 ^ 64 - 2 := by decide

theorem toSize_neg_one : toSize (-1) = 2 ^ 64 - 1 := by decide

theorem toSize_zero : toSize (-1 + 1) = 0 := by decide

theorem ParseQuestion_no_space (line : Str) (h : ' ' ∉ line) (hlen : line.length < 2 ^ 64 - 1) :
    ParseQuestion line = .ok (line, line) := by
  have hp : find_first_of_space line = -1 := by
    rw [find_first_of_space, spaceIndex_eq_none line h]
  unfold ParseQuestion
  simp only [hp, toSize_neg_two, toSize_zero]
  have hl : line.length ≤ 18446744073709551614 := by omega
  simp [substr, substrFrom, hl, bind, Except.bind, pure, Except.pure]

theorem parseQuery_no_space (line : Str) (h : ' ' ∉ line) (hlen : line.length < 2 ^ 64 - 1) :
    parseQuery line = .ok (line, line) := by
  have hp : find_first_of_space line = -1 := by
    rw [find_first_of_space, spaceIndex_eq_none line h]
  unfold parseQuery
  simp only [hp, toSize_neg_one, toSize_zero]
  have hl : line.length ≤ 18446744073709551615 := by omega
  simp [substr, substrFrom, hl, bind, Except.bind, pure, Except.pure]

/-! ## A hierarchy with many children -/

theorem namesAll_leaves (ns : List Str) : TopicTree.namesAll (leaves ns) = ns := by
  induction ns with
  | nil => rfl
  | cons a ns ih =>
    show TopicTree.namesAll (TopicTree.node a [] :: leaves ns) = a :: ns
    simp only [TopicTree.namesAll, TopicTree.names, ih]
    rfl

theorem pathToAll_leaves (ns : List Str) (b : Str) (h : b ∈ ns) :
    TopicTree.pathToAll (leaves ns) b = some [b] := by
  induction ns with
  | nil => simp at h
  | cons a ns ih =>
    show TopicTree.pathToAll (TopicTree.node a [] :: leaves ns) b = some [b]
    by_cases hab : a = b
    · simp [TopicTree.pathToAll, TopicTree.pathTo, hab]
    · have hb : b ∈ ns := by
        rcases List.mem_cons.mp h with e | e
        · exact absurd e.symm hab
        · exact e
      simp [TopicTree.pathToAll, TopicTree.pathTo, hab, ih hb]

theorem leafName_injective : Function.Injective leafName := by
  intro i j h
  have := congrArg List.length h
  simpa [leafName] using this

theorem leafName_ne_root (i : Nat) : leafName i ≠ ['A'] := by
  intro h
  have : (leafName i).head? = some 'A' := by rw [h]; rfl
  simp [leafName, List.replicate_succ] at this

theorem leafName_valid (i : Nat) : ValidName (leafName i) := by
  refine ⟨by simp [leafName, List.replicate_succ], ?_, ?_, ?_⟩
  · intro c hc
    have : c = 'x' := List.eq_of_mem_replicate hc
    rw [this]
    decide
  · intro h
    have : (leafName i).head? = some '(' := by rw [h]; rfl
    simp [leafName, List.replicate_succ] at this
  · intro h
    have : (leafName i).head? = some ')' := by rw [h]; rfl
    simp [leafName, List.replicate_succ] at this

theorem starTree_names (n : Nat) :
    (starTree n).names = ['A'] :: (List.range n).map leafName := by
  simp [starTree, TopicTree.names, namesAll_leaves]

theorem starTree_wellFormed (n : Nat) : (starTree n).WellFormed := by
  unfold TopicTree.WellFormed
  rw [starTree_names]
  constructor
  · intro a ha
    rcases List.mem_cons.mp ha with e | e
    · rw [e]; decide
    · obtain ⟨i, _, rfl⟩ := List.mem_map.mp e
      exact leafName_valid i
  · rw [List.nodup_cons]
    constructor
    · intro h
      obtain ⟨i, _, hi⟩ := List.mem_map.mp h
      exact leafName_ne_root i hi
    · exact (List.nodup_range n).map leafName_injective

theorem starTree_pathTo_root (n : Nat) : (starTree n).pathTo ['A'] = some [['A']] := by
  simp [starTree, TopicTree.pathTo]

theorem starTree_pathTo_leaf (n i : Nat) (h : i < n) :
    (starTree n).pathTo (leafName i) = some [['A'], leafName i] := by
  have hne : ¬ ['A'] = leafName i := fun e => leafName_ne_root i e.symm
  have hmem : leafName i ∈ (List.range n).map leafName :=
    List.mem_map_of_mem leafName (List.mem_range.mpr h)
  simp only [starTree, TopicTree.pathTo, if_neg hne, pathToAll_leaves _ _ hmem]
  rfl

/-- No pair of integers read off the ancestor list of a topic encodes every well-formed
hierarchy by intervals: a topic with more children than its interval has integers would
give two children the same `enter`. -/
theorem no_intervalEncoding : ¬ ∃ enter exit : List Str → Int, IntervalEncoding enter exit := by
  rintro ⟨enter, exit, henc⟩
  let n : Nat := (exit [['A']] - enter [['A']]).toNat + 2
  have hwf := starTree_wellFormed n
  have hm := find?_of_tree (starTree n) hwf.2
  have htop := topics_of_tree (starTree n) hwf.1
  have hiff := henc (starTree n) hwf _ htop
  have hleaf : ∀ i, i < n →
      UMap.find? (setAll [] ((starTree n).assignments [])) (leafName i)
        = some [['A'], leafName i] := fun i hi => by
    rw [hm, starTree_pathTo_leaf n i hi]
  have hroot : UMap.find? (setAll [] ((starTree n).assignments [])) ['A'] = some [['A']] := by
    rw [hm, starTree_pathTo_root]
  have hanc : ∀ a i, i < n →
      ((starTree n).AncestorOrSelf a (leafName i) ↔ a ∈ [['A'], leafName i]) := fun a i hi =>
    (mem_pathTo (starTree n) a (leafName i) _ hwf.2 (starTree_pathTo_leaf n i hi)).symm
  have hin : ∀ i ∈ Finset.range n,
      enter [['A'], leafName i] ∈ Finset.Icc (enter [['A']]) (exit [['A']]) := by
    intro i hi
    have hi' := Finset.mem_range.mp hi
    rw [Finset.mem_Icc]
    exact (hiff ['A'] (leafName i) _ _ hroot (hleaf i hi')).mp
      ((hanc ['A'] i hi').mpr (by simp))
  have hcard : (Finset.Icc (enter [['A']]) (exit [['A']])).card < (Finset.range n).card := by
    rw [Int.card_Icc, Finset.card_range]
    show _ < (exit [['A']] - enter [['A']]).toNat + 2
    omega
  obtain ⟨i, hi, j, hj, hij, heq⟩ :=
    Finset.exists_ne_map_eq_of_card_lt_of_maps_to hcard hin
  have hi' := Finset.mem_range.mp hi
  have hj' := Finset.mem_range.mp hj
  have hself := (hiff (leafName i) (leafName i) _ _ (hleaf i hi') (hleaf i hi')).mp
    ((hanc (leafName i) i hi').mpr (by simp))
  have hbad := (hiff (leafName i) (leafName j) _ _ (hleaf i hi') (hleaf j hj')).mpr
    ⟨le_of_eq heq, by rw [← heq]; exact hself.2⟩
  have hmem := (hanc (leafName i) j hj').mp hbad
  simp only [List.mem_cons, List.mem_singleton, List.not_mem_nil, or_false] at hmem
  rcases hmem with e | e
  · exact leafName_ne_root i e
  · exact hij (leafName_injective e)

/-- Under a topic map without an empty ancestor list the keys of the built table are the
prefixes of size 1 and more of the question texts. -/
theorem prefix_coverage_of_nonempty (m : UMap (List Str)) (items : List (Str × Str))
    (tbl : UMap (UMap Int)) (hm : ∀ k p, UMap.find? m k = some p → p ≠ [])
    (h : GetPrefixToTopicToCount items m = .ok tbl) (q : Str) :
    q ∈ UMap.keys tbl ↔ q ≠ [] ∧ ∃ it ∈ items, q <+: it.2 := by
  rw [keys_of_build m items tbl h]
  constructor
  · rintro ⟨it, hit, ⟨h1, h2⟩, _⟩
    exact ⟨h1, it, hit, h2⟩
  · rintro ⟨h1, it, hit, h2⟩
    refine ⟨it, hit, ⟨h1, h2⟩, ?_⟩
    have hacc := accepted_of_build m items tbl h it hit
    rcases hacc with hacc | hacc
    · rw [hacc] at h2
      exact absurd (List.prefix_nil.mp h2) h1
    · unfold pathOf UMap.sub
      cases hf : UMap.find? m it.1 with
      | none => rw [hf] at hacc; simp at hacc
      | some p => exact hm it.1 p hf

/-! ## The claims -/

/-- C1. End-to-end count: on the topic line of a tree with valid, pairwise distinct names,
question lines `name: text` with declared names and query lines `name text` with a declared
name and a non-empty query text, the program prints for every query the number of questions
whose topic is the queried topic or a descendant of it and whose text starts with the query
text. -/
theorem C1_end_to_end_count (t : TopicTree) (items queries : List (Str × Str))
    (ht : t.WellFormed) (hi : ∀ it ∈ items, it.1 ∈ t.names)
    (hq : ∀ tq ∈ queries, tq.1 ∈ t.names ∧ tq.2 ≠ []) :
    main t.line (items.map questionLine) (queries.map queryLine)
      = .ok (queries.map (fun tq => (matching t items tq.1 tq.2 : Int))) := by
  obtain ⟨hv, hn⟩ := ht
  rw [main_of_tree t items queries hv hn hi
    (fun tq htq => not_space_mem_of_valid tq.1 (hv tq.1 (hq tq htq).1))]
  congr 1
  apply List.map_congr_left
  intro tq htq
  exact tally_eq_matching t _ hn (find?_of_tree t hn) items tq.1 tq.2 (hq tq htq).2

/-- C1, on the sample of the source: the hierarchy, the five questions and the four queries
give 1, 2, 0, 3. -/
theorem C1_end_to_end_count_witness :
    sampleTree.WellFormed ∧ (∀ it ∈ sampleItems, it.1 ∈ sampleTree.names)
      ∧ (∀ tq ∈ sampleQueries, tq.1 ∈ sampleTree.names ∧ tq.2 ≠ [])
      ∧ main "Animals ( Reptiles Birds ( Eagles Pigeons Crows ) )".toList
          ["Reptiles: Why are many reptiles green?".toList,
           "Birds: How do birds fly?".toList,
           "Eagles: How endangered are eagles?".toList,
           "Pigeons: Where in the world are pigeons most densely populated?".toList,
           "Eagles: Where do most eagles live?".toList]
          ["Eagles How en".toList, "Birds Where".toList, "Reptiles Why do".toList,
           "Animals Wh".toList]
        = .ok [1, 2, 0, 3] := by
  have h := C1_end_to_end_count sampleTree sampleItems sampleQueries (by decide) (by decide)
    (by decide)
  exact ⟨by decide, by decide, by decide, h⟩

/-- C2. Subtree membership: on the topic line of a tree with valid, pairwise distinct names
the function `GetTopicsToTopicsOnPaths` returns a map whose keys are the names of the tree
and that holds for every name `b` the path to `b`: the ancestors of `b` from the root
downwards, ending with `b`. Hence `a` occurs in the list of `b` exactly when `a` is `b` or
an ancestor of `b`. -/
theorem C2_ancestor_lists (t : TopicTree) (ht : t.WellFormed) :
    ∃ m, GetTopicsToTopicsOnPaths t.line = .ok m
      ∧ (∀ b, b ∈ UMap.keys m ↔ b ∈ t.names)
      ∧ (∀ b, UMap.find? m b = t.pathTo b)
      ∧ (∀ b p, UMap.find? m b = some p →
          p.head? = some t.name ∧ p.getLast? = some b ∧ ∀ a, a ∈ p ↔ t.AncestorOrSelf a b) := by
  obtain ⟨hv, hn⟩ := ht
  refine ⟨setAll [] (t.assignments []), topics_of_tree t hv, ?_, find?_of_tree t hn, ?_⟩
  · intro b
    rw [mem_keys_setAll, assignments_keys]
    simp [UMap.keys]
  · intro b p hp
    rw [find?_of_tree t hn] at hp
    exact ⟨pathTo_head t b p hp, pathTo_getLast t b p hp, fun a => mem_pathTo t a b p hn hp⟩

/-- C2, on the hierarchy of the sample: the list of Eagles is Animals, Birds, Eagles. -/
theorem C2_ancestor_lists_witness :
    sampleTree.WellFormed
      ∧ ∃ m, GetTopicsToTopicsOnPaths
            "Animals ( Reptiles Birds ( Eagles Pigeons Crows ) )".toList = .ok m
          ∧ UMap.find? m "Eagles".toList
              = some ["Animals".toList, "Birds".toList, "Eagles".toList] := by
  obtain ⟨m, h1, _, h3, _⟩ := C2_ancestor_lists sampleTree (by decide)
  exact ⟨by decide, m, h1, (h3 _).trans (by decide)⟩

/-- C3. An absent prefix is a normal zero: on a table that `GetPrefixToTopicToCount`
returned, `SolveQueries` never fails, whatever the topics and texts of the queries; it
prints 0 when the query text is a prefix of no question, and it prints 0 when no question
that starts with the query text has the queried topic on its ancestor list. -/
theorem C3_absent_prefix_is_zero (m : UMap (List Str)) (items : List (Str × Str))
    (tbl : UMap (UMap Int)) (h : GetPrefixToTopicToCount items m = .ok tbl)
    (topic query : Str) :
    (∀ qs, ∃ out, SolveQueries qs tbl = .ok out)
      ∧ ((∀ it ∈ items, ¬ query <+: it.2) → SolveQueries [(topic, query)] tbl = .ok [0])
      ∧ ((∀ it ∈ items, query <+: it.2 → topic ∉ pathOf m it.1) →
          SolveQueries [(topic, query)] tbl = .ok [0]) := by
  have hz : tally m items topic query = 0 → SolveQueries [(topic, query)] tbl = .ok [0] := by
    intro h0
    rw [SolveQueries_eq]
    simp only [List.map_cons, List.map_nil]
    rw [answer_of_build m items tbl h, h0]
  refine ⟨fun qs => ⟨_, SolveQueries_eq tbl qs⟩, fun hno => hz ?_, fun hno => hz ?_⟩
  · unfold tally
    apply List.sum_eq_zero
    intro x hx
    obtain ⟨it, hit, rfl⟩ := List.mem_map.mp hx
    rw [if_neg (fun hc => hno it hit hc.2)]
  · unfold tally
    apply List.sum_eq_zero
    intro x hx
    obtain ⟨it, hit, rfl⟩ := List.mem_map.mp hx
    by_cases hc : query ≠ [] ∧ query <+: it.2
    · rw [if_pos hc, occurrences_eq_zero topic _ (hno it hit hc.2)]
      rfl
    · rw [if_neg hc]

/-- C3, on one question `x` of topic `A` under the map of the line `A`. -/
theorem C3_absent_prefix_is_zero_witness :
    GetPrefixToTopicToCount [(['A'], ['x'])] [(['A'], [['A']])] = .ok [(['x'], [(['A'], 1)])]
      ∧ SolveQueries [(['A'], ['y'])] [(['x'], [(['A'], 1)])] = .ok [0]
      ∧ SolveQueries [(['B'], ['x'])] [(['x'], [(['A'], 1)])] = .ok [0] := by
  have h := C3_absent_prefix_is_zero [(['A'], [['A']])] [(['A'], ['x'])]
    [(['x'], [(['A'], 1)])] rfl
  exact ⟨rfl, (h ['A'] ['y']).2.1 (by decide), (h ['B'] ['x']).2.2 (by decide)⟩

/-- C4, as stated, fails: with the single topic `A` and the single question `A: x` the
query line of `A` with the empty text is answered 0, while one question lies in the
subtree of `A`. -/
theorem C4_empty_prefix_counterexample :
    main oneTopic.line [questionLine (['A'], ['x'])] [queryLine (['A'], [])] = .ok [0]
      ∧ matching oneTopic [(['A'], ['x'])] ['A'] [] = 1 := by
  constructor
  · rfl
  · decide

/-- C4, amended. The empty query text matches no question: on the topic line of a tree with
valid, pairwise distinct names and question lines with declared names, the query of a
declared topic with the empty text is answered 0, whatever the questions are, because no
prefix of size 0 is recorded. -/
theorem C4_empty_prefix_is_zero (t : TopicTree) (items : List (Str × Str)) (topic : Str)
    (ht : t.WellFormed) (hi : ∀ it ∈ items, it.1 ∈ t.names) (ha : topic ∈ t.names) :
    main t.line (items.map questionLine) [queryLine (topic, [])] = .ok [0] := by
  obtain ⟨hv, hn⟩ := ht
  have h := main_of_tree t items [(topic, [])] hv hn hi (fun tq htq => by
    rw [List.mem_singleton.mp htq]
    exact not_space_mem_of_valid topic (hv topic ha))
  simp only [List.map_cons, List.map_nil, tally_nil_query] at h
  exact h

/-- C4, amended, on the sample of the source: the root with the empty text gives 0. -/
theorem C4_empty_prefix_is_zero_witness :
    sampleTree.WellFormed ∧ (∀ it ∈ sampleItems, it.1 ∈ sampleTree.names)
      ∧ "Animals".toList ∈ sampleTree.names
      ∧ main sampleTree.line (sampleItems.map questionLine) ["Animals ".toList] = .ok [0] :=
  ⟨by decide, by decide, by decide,
    C4_empty_prefix_is_zero sampleTree sampleItems "Animals".toList (by decide) (by decide)
      (by decide)⟩

/-- C5, as stated, fails: with the single topic `A` and the single question `A: x` the query
of the undeclared topic `B` is answered 0 without any error, which is also the answer to the
query of `A` with the text `y` that no question starts with. -/
theorem C5_unknown_topic_counterexample :
    main oneTopic.line [questionLine (['A'], ['x'])]
        [queryLine (['B'], ['x']), queryLine (['A'], ['y'])] = .ok [0, 0]
      ∧ ['B'] ∉ oneTopic.names := by
  constructor
  · rfl
  · decide

/-- C5, amended. An unknown topic in a query is not signalled: on the table built from the
map of a tree with valid, pairwise distinct names, the query of a topic that is not a name
of the tree prints 0, whatever its text, as a query with an absent prefix does. -/
theorem C5_unknown_topic_is_zero (t : TopicTree) (items : List (Str × Str))
    (topic query : Str) (ht : t.WellFormed) (ha : topic ∉ t.names) :
    ∃ m, GetTopicsToTopicsOnPaths t.line = .ok m
      ∧ ∀ tbl, GetPrefixToTopicToCount items m = .ok tbl →
          SolveQueries [(topic, query)] tbl = .ok [0] := by
  obtain ⟨hv, hn⟩ := ht
  have hm := find?_of_tree t hn
  refine ⟨_, topics_of_tree t hv, ?_⟩
  intro tbl h
  refine (zero_of_no_topic _ items tbl h topic query) ?_
  intro it _ _ hmem
  rw [pathOf_of_tree t _ hm] at hmem
  cases hp : t.pathTo it.1 with
  | none => rw [hp] at hmem; simp at hmem
  | some p =>
    rw [hp] at hmem
    exact ha ((pathTo_sublist t it.1 p hp).subset hmem)

/-- C5, amended, on the sample of the source: the undeclared topic Cats gives 0. -/
theorem C5_unknown_topic_is_zero_witness :
    sampleTree.WellFormed ∧ "Cats".toList ∉ sampleTree.names
      ∧ ∃ m, GetTopicsToTopicsOnPaths sampleTree.line = .ok m
        ∧ ∀ tbl, GetPrefixToTopicToCount sampleItems m = .ok tbl →
            SolveQueries [("Cats".toList, "Wh".toList)] tbl = .ok [0] :=
  ⟨by decide, by decide,
    C5_unknown_topic_is_zero sampleTree sampleItems "Cats".toList "Wh".toList (by decide)
      (by decide)⟩

/-- C6, as stated, fails: the line `A ( B B )` repeats the name `B` and the function
`GetTopicsToTopicsOnPaths` returns a map for it. -/
theorem C6_duplicate_names_counterexample :
    SplitString "A ( B B )".toList = [['A'], ['('], ['B'], ['B'], [')']]
      ∧ GetTopicsToTopicsOnPaths "A ( B B )".toList
          = .ok [(['A'], [['A']]), (['B'], [['A'], ['B']])] := by
  constructor <;> rfl

/-- C6, amended. Duplicate names are not rejected: on the topic line of every tree with valid
names, repeated or not, the function `GetTopicsToTopicsOnPaths` returns a map; its keys are
the names of the tree, and a name holds the ancestor list of its last occurrence in the
line, each occurrence overwriting the entry of the one before. -/
theorem C6_duplicate_names_overwrite (t : TopicTree) (hv : ∀ a ∈ t.names, ValidName a) :
    ∃ m, GetTopicsToTopicsOnPaths t.line = .ok m
      ∧ (∀ b, b ∈ UMap.keys m ↔ b ∈ t.names)
      ∧ (∀ l1 l2 b p, t.assignments [] = l1 ++ (b, p) :: l2 → b ∉ l2.map Prod.fst →
          UMap.find? m b = some p) := by
  refine ⟨setAll [] (t.assignments []), topics_of_tree t hv, ?_, ?_⟩
  · intro b
    rw [mem_keys_setAll, assignments_keys]
    simp [UMap.keys]
  · intro l1 l2 b p he hb
    rw [he]
    exact find?_setAll_last [] l1 l2 b p hb

/-- C6, amended, on a hierarchy that uses the name `B` twice, under `A` and then under `C`:
a map is returned and `B` holds the list of its second occurrence. -/
theorem C6_duplicate_names_overwrite_witness :
    (∀ a ∈ repeatedTopic.names, ValidName a) ∧ ¬ repeatedTopic.names.Nodup
      ∧ ∃ m, GetTopicsToTopicsOnPaths "A ( B C ( B ) )".toList = .ok m
          ∧ UMap.find? m ['B'] = some [['A'], ['C'], ['B']] := by
  obtain ⟨m, h1, _, h3⟩ := C6_duplicate_names_overwrite repeatedTopic (by decide)
  exact ⟨by decide, by decide, m, h1,
    h3 [(['A'], [['A']]), (['B'], [['A'], ['B']]), (['C'], [['A'], ['C']])] []
      ['B'] [['A'], ['C'], ['B']] rfl (by decide)⟩

/-- C7, as stated, fails: the tokens of the line `A ( B` end with the ancestor stack holding
`A`, the "(" being unclosed, and the function `GetTopicsToTopicsOnPaths` returns a map. -/
theorem C7_unbalanced_counterexample :
    (topicsLoop [['A'], ['('], ['B']]).map PathState.currentTopicsOnPath = .ok [['A']]
      ∧ GetTopicsToTopicsOnPaths "A ( B".toList
          = .ok [(['A'], [['A']]), (['B'], [['A'], ['B']])] := by
  constructor <;> rfl

/-- C7, amended. Unbalanced grouping markers are not checked. When the tokens end, the map
built so far is returned whatever the ancestor stack holds, so an unclosed "(" is accepted.
A ")" met with an empty ancestor stack calls `pop_back` on an empty vector: no
malformed-hierarchy error is signalled, the behaviour is undefined, and the embedding
returns no map. -/
theorem C7_unbalanced_unchecked (pre post tokens : List Str) (st st' : PathState)
    (hpre : topicsLoop pre = .ok st) (hempty : st.currentTopicsOnPath = [])
    (htokens : topicsLoop tokens = .ok st') :
    topicsOfTokens tokens = .ok st'.topicsToTopicsOnPaths
      ∧ topicsOfTokens (pre ++ [')'] :: post) = .error .undefinedBehaviour := by
  constructor
  · unfold topicsOfTokens
    rw [htokens]
    rfl
  · unfold topicsOfTokens topicsLoop at *
    rw [List.foldlM_append, hpre]
    simp only [bind, Except.bind, List.foldlM_cons]
    rw [topicsStep_close_empty st hempty]
    rfl

/-- C7, amended, on the tokens `A ( B`, which leave `A` on the stack, and on `A )`. -/
theorem C7_unbalanced_unchecked_witness :
    topicsLoop [['A']] = .ok ⟨[(['A'], [['A']])], [], some ['A']⟩
      ∧ topicsLoop [['A'], ['('], ['B']]
          = .ok ⟨[(['A'], [['A']]), (['B'], [['A'], ['B']])], [['A']], some ['B']⟩
      ∧ topicsOfTokens [['A'], ['('], ['B']] = .ok [(['A'], [['A']]), (['B'], [['A'], ['B']])]
      ∧ topicsOfTokens [['A'], [')']] = .error .undefinedBehaviour :=
  ⟨rfl, rfl,
    C7_unbalanced_unchecked [['A']] [] [['A'], ['('], ['B']]
      ⟨[(['A'], [['A']])], [], some ['A']⟩
      ⟨[(['A'], [['A']]), (['B'], [['A'], ['B']])], [['A']], some ['B']⟩ rfl rfl rfl⟩

/-- C9, as stated, fails at the empty prefix: with the topic `A`, its single child `B` and
the single question `A: x`, the queries of `A` and of `B` with the empty text are both
answered 0, while one question tagged `A` starts with the empty text: 0 is not 1 + 0. -/
theorem C9_additivity_counterexample :
    parentAndChild.WellFormed
      ∧ main parentAndChild.line [questionLine (['A'], ['x'])]
          [queryLine (['A'], []), queryLine (['B'], [])] = .ok [0, 0]
      ∧ [((['A'], ['x']) : Str × Str)].countP
          (fun it => decide (it.1 = ['A']) && decide (([] : Str) <+: it.2)) = 1 := by
  refine ⟨by decide, rfl, by decide⟩

/-- C9, amended. Additivity over children for a non-empty prefix: on the topic line of a
tree with valid, pairwise distinct names and question lines with declared names, for every
node of the tree with name `r` and children `cs` and every non-empty query text, the answer
for `r` is the number of questions tagged exactly `r` whose text starts with the query text
plus the sum of the answers for the children. -/
theorem C9_additivity_nonempty (t : TopicTree) (items : List (Str × Str)) (r : Str)
    (cs : List TopicTree) (query : Str) (ht : t.WellFormed)
    (hi : ∀ it ∈ items, it.1 ∈ t.names) (hs : TopicTree.node r cs ∈ t.subtrees)
    (hq : query ≠ []) :
    ∃ x ys, main t.line (items.map questionLine)
          (queryLine (r, query) :: cs.map (fun c => queryLine (c.name, query)))
        = .ok (x :: ys)
      ∧ x = (items.countP (fun it => decide (it.1 = r) && decide (query <+: it.2)) : Int)
            + ys.sum := by
  obtain ⟨hv, hn⟩ := ht
  have hm := find?_of_tree t hn
  have hqs : ∀ tq ∈ (r, query) :: cs.map (fun c => (c.name, query)), ' ' ∉ tq.1 := by
    intro tq htq
    apply not_space_mem_of_valid
    apply hv
    rcases List.mem_cons.mp htq with e | e
    · rw [e]
      exact name_mem_of_subtree t _ hs
    · obtain ⟨c, hc, rfl⟩ := List.mem_map.mp e
      apply name_mem_of_subtree t c
      apply subtrees_trans t _ c hs
      simp only [TopicTree.subtrees, List.mem_cons]
      exact Or.inr (mem_subtreesAll_of_mem cs c hc)
  have h := main_of_tree t items ((r, query) :: cs.map (fun c => (c.name, query))) hv hn hi hqs
  simp only [List.map_cons, List.map_map] at h
  refine ⟨_, _, h, ?_⟩
  rw [tally_eq_matching t _ hn hm items r query hq, matching_children t r cs items query hn hs]
  push_cast
  congr 1
  rw [List.map_map]
  congr 1
  apply List.map_congr_left
  intro c _
  exact (tally_eq_matching t _ hn hm items c.name query hq).symm

/-- C9, amended, on the sample of the source: for Birds and the text `Wh` the answer 2 is
0 own questions plus the answers 1, 1, 0 of Eagles, Pigeons and Crows. -/
theorem C9_additivity_nonempty_witness :
    sampleTree.WellFormed ∧ (∀ it ∈ sampleItems, it.1 ∈ sampleTree.names)
      ∧ TopicTree.node "Birds".toList
          [.node "Eagles".toList [], .node "Pigeons".toList [], .node "Crows".toList []]
        ∈ sampleTree.subtrees
      ∧ "Wh".toList ≠ []
      ∧ ∃ x ys, main sampleTree.line (sampleItems.map questionLine)
            ["Birds Wh".toList, "Eagles Wh".toList, "Pigeons Wh".toList, "Crows Wh".toList]
          = .ok (x :: ys)
        ∧ x = (sampleItems.countP
                (fun it => decide (it.1 = "Birds".toList) && decide ("Wh".toList <+: it.2)) : Int)
              + ys.sum :=
  ⟨by decide, by decide, by simp [sampleTree, TopicTree.subtrees, TopicTree.subtreesAll],
    by decide,
    C9_additivity_nonempty sampleTree sampleItems "Birds".toList
      [.node "Eagles".toList [], .node "Pigeons".toList [], .node "Crows".toList []]
      "Wh".toList (by decide) (by decide)
      (by simp [sampleTree, TopicTree.subtrees, TopicTree.subtreesAll]) (by decide)⟩

/-- C10. Prefix coverage: for every topic map that `GetTopicsToTopicsOnPaths` returns, on
whatever line, and every list of questions on which `GetPrefixToTopicToCount` succeeds, the
keys of the returned table are exactly the prefixes of size 1 and more of the question
texts: every such prefix of every text is a key, every key is such a prefix of some text,
and the empty string is never a key. -/
theorem C10_prefix_coverage (line : Str) (m : UMap (List Str)) (items : List (Str × Str))
    (tbl : UMap (UMap Int)) (hm : GetTopicsToTopicsOnPaths line = .ok m)
    (h : GetPrefixToTopicToCount items m = .ok tbl) (q : Str) :
    (q ∈ UMap.keys tbl ↔ q ≠ [] ∧ ∃ it ∈ items, q <+: it.2)
      ∧ ([] : Str) ∉ UMap.keys tbl := by
  constructor
  · exact prefix_coverage_of_nonempty m items tbl (topics_lists_nonempty line m hm) h q
  · intro hk
    exact ((prefix_coverage_of_nonempty m items tbl (topics_lists_nonempty line m hm) h
      []).mp hk).1 rfl

/-- C10, on the line `A ( B )` and the questions `B: xy` and `A: z`: the keys of the table
are `x`, `xy` and `z`. -/
theorem C10_prefix_coverage_witness :
    GetTopicsToTopicsOnPaths "A ( B )".toList = .ok [(['A'], [['A']]), (['B'], [['A'], ['B']])]
      ∧ GetPrefixToTopicToCount [(['B'], ['x', 'y']), (['A'], ['z'])]
            [(['A'], [['A']]), (['B'], [['A'], ['B']])]
          = .ok [(['x'], [(['A'], 1), (['B'], 1)]), (['x', 'y'], [(['A'], 1), (['B'], 1)]),
                 (['z'], [(['A'], 1)])]
      ∧ UMap.keys [(['x'], [(['A'], (1 : Int)), (['B'], 1)]),
            (['x', 'y'], [(['A'], 1), (['B'], 1)]), (['z'], [(['A'], 1)])]
          = [['x'], ['x', 'y'], ['z']]
      ∧ (['x', 'y'] ∈ UMap.keys [(['x'], [(['A'], (1 : Int)), (['B'], 1)]),
              (['x', 'y'], [(['A'], 1), (['B'], 1)]), (['z'], [(['A'], 1)])]
          ↔ (['x', 'y'] : Str) ≠ []
            ∧ ∃ it ∈ [((['B'], ['x', 'y']) : Str × Str), (['A'], ['z'])], ['x', 'y'] <+: it.2) :=
  ⟨rfl, rfl, rfl,
    (C10_prefix_coverage "A ( B )".toList [(['A'], [['A']]), (['B'], [['A'], ['B']])]
      [(['B'], ['x', 'y']), (['A'], ['z'])]
      [(['x'], [(['A'], 1), (['B'], 1)]), (['x', 'y'], [(['A'], 1), (['B'], 1)]),
        (['z'], [(['A'], 1)])] rfl rfl ['x', 'y']).1⟩

/-- C11. One answer per query, in input order, each independent of the others: on every
table `SolveQueries` prints, for every list of queries, the list of the answers of the single
queries, each a function of the query and the table alone. So it prints as many numbers as
there are queries, the output for two lists one after the other is the two outputs one
after the other, and selecting or permuting the queries by a list of positions selects or
permutes the answers by the same positions. -/
theorem C11_one_answer_per_query (tbl : UMap (UMap Int)) :
    ∃ f : Str × Str → Int,
      (∀ tq, SolveQueries [tq] tbl = .ok [f tq])
        ∧ (∀ qs, SolveQueries qs tbl = .ok (qs.map f))
        ∧ (∀ qs, ∃ out, SolveQueries qs tbl = .ok out ∧ out.length = qs.length)
        ∧ (∀ q1 q2, ∃ o1 o2, SolveQueries q1 tbl = .ok o1 ∧ SolveQueries q2 tbl = .ok o2
            ∧ SolveQueries (q1 ++ q2) tbl = .ok (o1 ++ o2))
        ∧ (∀ qs (positions : List Nat), ∃ out, SolveQueries qs tbl = .ok out
            ∧ SolveQueries (positions.filterMap (fun i => qs[i]?)) tbl
                = .ok (positions.filterMap (fun i => out[i]?))) := by
  refine ⟨fun tq => answer tbl tq.1 tq.2, fun tq => SolveQueries_eq tbl [tq],
    fun qs => SolveQueries_eq tbl qs, fun qs => ⟨_, SolveQueries_eq tbl qs, by simp⟩,
    fun q1 q2 => ⟨_, _, SolveQueries_eq tbl q1, SolveQueries_eq tbl q2, ?_⟩,
    fun qs positions => ⟨_, SolveQueries_eq tbl qs, ?_⟩⟩
  · rw [SolveQueries_eq, List.map_append]
  · rw [SolveQueries_eq, List.map_filterMap]
    congr 1
    apply List.filterMap_congr
    intro i _
    simp [List.getElem?_map]

/-- C12, as stated, fails: `GetTopicsToTopicsOnPaths` assigns no integers. On the sample it
assigns to every topic the list of the names of its ancestors and nothing else, and no two
integers `enter` and `exit` read off the list assigned to a topic satisfy the interval test
on every well-formed hierarchy. -/
theorem C12_interval_encoding_counterexample :
    GetTopicsToTopicsOnPaths "Animals ( Reptiles Birds ( Eagles Pigeons Crows ) )".toList
        = .ok [("Animals".toList, ["Animals".toList]),
               ("Reptiles".toList, ["Animals".toList, "Reptiles".toList]),
               ("Birds".toList, ["Animals".toList, "Birds".toList]),
               ("Eagles".toList, ["Animals".toList, "Birds".toList, "Eagles".toList]),
               ("Pigeons".toList, ["Animals".toList, "Birds".toList, "Pigeons".toList]),
               ("Crows".toList, ["Animals".toList, "Birds".toList, "Crows".toList])]
      ∧ ¬ ∃ enter exit : List Str → Int, IntervalEncoding enter exit :=
  ⟨rfl, no_intervalEncoding⟩

/-- C12, amended. Ancestor-list encoding of the hierarchy: on the topic line of a tree with
valid, pairwise distinct names `GetTopicsToTopicsOnPaths` assigns to every topic the list of
its ancestors down to itself, and no integers, such that for all topics `a` and `b` of the
hierarchy `a` is `b` or an ancestor of `b` exactly when `a` occurs in the list assigned to
`b`. -/
theorem C12_ancestor_list_encoding (t : TopicTree) (ht : t.WellFormed) :
    ∃ m, GetTopicsToTopicsOnPaths t.line = .ok m
      ∧ ∀ b ∈ t.names, ∃ pb, UMap.find? m b = some pb
          ∧ ∀ a, t.AncestorOrSelf a b ↔ a ∈ pb := by
  obtain ⟨hv, hn⟩ := ht
  refine ⟨_, topics_of_tree t hv, ?_⟩
  intro b hb
  obtain ⟨pb, hpb⟩ := pathTo_of_mem t b hb
  refine ⟨pb, by rw [find?_of_tree t hn, hpb], fun a => ?_⟩
  exact (mem_pathTo t a b pb hn hpb).symm

/-- C12, amended, on the hierarchy of the sample: Birds is on the list of Eagles and
Reptiles is not. -/
theorem C12_ancestor_list_encoding_witness :
    sampleTree.WellFormed
      ∧ sampleTree.AncestorOrSelf "Birds".toList "Eagles".toList
      ∧ ¬ sampleTree.AncestorOrSelf "Reptiles".toList "Eagles".toList
      ∧ ∃ m, GetTopicsToTopicsOnPaths sampleTree.line = .ok m
          ∧ ∀ b ∈ sampleTree.names, ∃ pb, UMap.find? m b = some pb
              ∧ ∀ a, sampleTree.AncestorOrSelf a b ↔ a ∈ pb :=
  ⟨by decide, by decide, by decide, C12_ancestor_list_encoding sampleTree (by decide)⟩

/-- C14. Question line round trip: for every topic name without a space, of any length, and
every text, which may hold spaces and may be empty, `ParseQuestion` maps the line made of
the name, a colon, a space and the text to the name and the text. -/
theorem C14_question_line_round_trip (name text : Str) (h : ' ' ∉ name) :
    ParseQuestion (name ++ [':', ' '] ++ text) = .ok (name, text) := by
  have e : name ++ [':', ' '] ++ text = questionLine (name, text) := by
    simp [questionLine]
  rw [e]
  exact ParseQuestion_questionLine (name, text) h

/-- C14, on a name of one character and a text with a space. -/
theorem C14_question_line_round_trip_witness :
    ' ' ∉ ['T'] ∧ ParseQuestion "T: a b?".toList = .ok (['T'], "a b?".toList) :=
  ⟨by decide, C14_question_line_round_trip ['T'] "a b?".toList (by decide)⟩

/-- C15. Query line round trip: for every list of topic names without a space and query
texts, which may hold spaces and question marks, `GetTopicsAndQueries` maps the lines made
of a name, a space and the text to the pairs of name and text, one pair per line, in the
same order. -/
theorem C15_query_line_round_trip (tqs : List (Str × Str)) (h : ∀ tq ∈ tqs, ' ' ∉ tq.1) :
    GetTopicsAndQueries (tqs.map (fun tq => tq.1 ++ [' '] ++ tq.2)) = .ok tqs := by
  have e : (fun tq : Str × Str => tq.1 ++ [' '] ++ tq.2) = queryLine := by
    funext tq
    simp [queryLine]
  rw [e]
  exact mapM_map_ok parseQuery queryLine tqs (fun tq htq => parseQuery_queryLine tq (h tq htq))

/-- C15, on the first two query lines of the sample. -/
theorem C15_query_line_round_trip_witness :
    (∀ tq ∈ [("Eagles".toList, "How en".toList), ("Reptiles".toList, "Why do".toList)],
        ' ' ∉ tq.1)
      ∧ GetTopicsAndQueries ["Eagles How en".toList, "Reptiles Why do".toList]
          = .ok [("Eagles".toList, "How en".toList), ("Reptiles".toList, "Why do".toList)] :=
  ⟨by decide,
    C15_query_line_round_trip
      [("Eagles".toList, "How en".toList), ("Reptiles".toList, "Why do".toList)] (by decide)⟩

/-- C16, as stated, fails: the question of the undeclared topic `B` with the empty text is
accepted, since the lookup of the topic is only reached inside the loop over the prefixes,
and a table is returned. -/
theorem C16_undeclared_topic_counterexample :
    GetPrefixToTopicToCount [(['B'], [])] [(['A'], [['A']])] = .ok []
      ∧ ['B'] ∉ UMap.keys [(['A'], [['A']])] := by
  refine ⟨rfl, by decide⟩

/-- C16, amended. An undeclared topic is rejected when its text has a character: for every
topic map and every list of questions, `GetPrefixToTopicToCount` fails with the
out-of-range lookup exactly when some question with a non-empty text has a topic that is not
a key of the map; otherwise it returns a table. -/
theorem C16_undeclared_topic_rejected (m : UMap (List Str)) (items : List (Str × Str)) :
    (GetPrefixToTopicToCount items m = .error .outOfRange
        ↔ ∃ it ∈ items, it.2 ≠ [] ∧ it.1 ∉ UMap.keys m)
      ∧ ((∃ it ∈ items, it.2 ≠ [] ∧ it.1 ∉ UMap.keys m)
        ∨ ∃ tbl, GetPrefixToTopicToCount items m = .ok tbl) := by
  have hiff : (∀ it ∈ items, Accepted m it)
      ↔ ¬ ∃ it ∈ items, it.2 ≠ [] ∧ it.1 ∉ UMap.keys m := by
    constructor
    · rintro hall ⟨it, hit, hno⟩
      exact (not_accepted_iff m it).mpr hno (hall it hit)
    · intro hno it hit
      by_contra hacc
      exact hno ⟨it, hit, (not_accepted_iff m it).mp hacc⟩
  rw [build_eq]
  by_cases hall : ∀ it ∈ items, Accepted m it
  · rw [if_pos hall]
    have hno := hiff.mp hall
    exact ⟨⟨fun h => (by cases h), fun h => absurd h hno⟩, Or.inr ⟨_, rfl⟩⟩
  · rw [if_neg hall]
    have hex : ∃ it ∈ items, it.2 ≠ [] ∧ it.1 ∉ UMap.keys m := by
      by_contra hno
      exact hall (hiff.mpr hno)
    exact ⟨⟨fun _ => hex, fun _ => rfl⟩, Or.inl hex⟩

/-- C18. Hierarchy parsing is safe on well-formed input: on the tokens of the flattened
notation of a tree, and of a list of trees, whose names are topics, every step of the loop
of `GetTopicsToTopicsOnPaths` succeeds; at every "(" the token before it exists and is a
topic name, at every ")" the ancestor stack is not empty, and the ancestor stack is empty
when the tokens end. -/
theorem C18_parsing_is_safe (ts : List TopicTree)
    (h : ∀ a ∈ TopicTree.namesAll ts, IsTopic a = true) :
    runSafe { topicsToTopicsOnPaths := [], currentTopicsOnPath := [], previous := none }
        (TopicTree.tokensAll ts)
      ∧ (∀ t ∈ ts, runSafe
          { topicsToTopicsOnPaths := [], currentTopicsOnPath := [], previous := none } t.tokens)
      ∧ ∃ st, topicsLoop (TopicTree.tokensAll ts) = .ok st ∧ st.currentTopicsOnPath = [] := by
  refine ⟨?_, ?_, ?_⟩
  · have := runSafe_all ts [] [] h (fun st' hst' => hst') ⟨[], [], none⟩ rfl
    rw [List.append_nil] at this
    exact this
  · intro t ht
    have hn : ∀ a ∈ t.names, IsTopic a = true := fun a ha => h a (by
      clear h
      induction ts with
      | nil => simp at ht
      | cons c cs ih =>
        simp only [TopicTree.namesAll, List.mem_append]
        rcases List.mem_cons.mp ht with e | e
        · left; rw [← e]; exact ha
        · right; exact ih e)
    have := runSafe_tree t [] [] hn (fun st' hst' => hst') ⟨[], [], none⟩ rfl
    rw [List.append_nil] at this
    exact this
  · obtain ⟨prev', hp⟩ := parse_all ts [] [] none h
    exact ⟨_, hp, rfl⟩

/-- C18, on the hierarchy of the sample and on the two trees `A ( B )` and `A`. -/
theorem C18_parsing_is_safe_witness :
    (∀ a ∈ TopicTree.namesAll [sampleTree], IsTopic a = true)
      ∧ runSafe { topicsToTopicsOnPaths := [], currentTopicsOnPath := [], previous := none }
          (SplitString "Animals ( Reptiles Birds ( Eagles Pigeons Crows ) )".toList)
      ∧ runSafe { topicsToTopicsOnPaths := [], currentTopicsOnPath := [], previous := none }
          [['A'], ['('], ['B'], [')'], ['A']] := by
  refine ⟨by decide, ?_, ?_⟩
  · exact (C18_parsing_is_safe [sampleTree] (by decide)).1
  · exact (C18_parsing_is_safe [parentAndChild, oneTopic] (by decide)).1

/-- C19. Counts are bounded: on the topic line of a tree with valid, pairwise distinct names
and a list of questions with declared topics, every count stored in the table is at least 1
and at most the number of questions, and every number that `SolveQueries` prints is at
least 0 and at most the number of questions; hence with at most 10^5 questions every count
and every answer is below 2^31 and fits the `int` counters. -/
theorem C19_counts_bounded (t : TopicTree) (items : List (Str × Str)) (ht : t.WellFormed)
    (hi : ∀ it ∈ items, it.1 ∈ t.names) :
    ∃ m tbl, GetTopicsToTopicsOnPaths t.line = .ok m
      ∧ GetPrefixToTopicToCount items m = .ok tbl
      ∧ (∀ p inner topic c, UMap.find? tbl p = some inner → UMap.find? inner topic = some c →
          1 ≤ c ∧ c ≤ items.length)
      ∧ (∀ qs, ∃ out, SolveQueries qs tbl = .ok out ∧ ∀ x ∈ out, 0 ≤ x ∧ x ≤ items.length)
      ∧ (items.length ≤ 100000 →
          (∀ p inner topic c, UMap.find? tbl p = some inner →
            UMap.find? inner topic = some c → c < 2 ^ 31)
          ∧ ∀ qs out, SolveQueries qs tbl = .ok out → ∀ x ∈ out, x < 2 ^ 31) := by
  obtain ⟨hv, hn⟩ := ht
  have hm := find?_of_tree t hn
  have h3 := build_eq (setAll [] (t.assignments [])) items
  rw [if_pos (accepted_of_declared t _ hm items hi)] at h3
  have hle : ∀ topic q, answer (items.foldl (addQuestion (setAll [] (t.assignments []))) [])
      topic q ≤ items.length := fun topic q => by
    rw [answer_of_build _ items _ h3]
    exact tally_le_length _ items topic q (occurrences_le_one_of_tree t _ hn hm topic)
  have hge : ∀ topic q, 0 ≤ answer (items.foldl (addQuestion (setAll [] (t.assignments []))) [])
      topic q := fun topic q => by
    rw [answer_of_build _ items _ h3]
    exact tally_nonneg _ items topic q
  have hstored : ∀ p inner topic c,
      UMap.find? (items.foldl (addQuestion (setAll [] (t.assignments []))) []) p = some inner →
      UMap.find? inner topic = some c → 1 ≤ c ∧ c ≤ items.length := by
    intro p inner topic c h1 h2
    refine ⟨positive_of_build _ items _ h3 p inner topic c h1 h2, ?_⟩
    rw [← stored_eq_answer _ p topic inner c h1 h2]
    exact hle topic p
  have hout : ∀ qs, ∃ out,
      SolveQueries qs (items.foldl (addQuestion (setAll [] (t.assignments []))) []) = .ok out
        ∧ ∀ x ∈ out, 0 ≤ x ∧ x ≤ items.length := by
    intro qs
    refine ⟨_, SolveQueries_eq _ qs, ?_⟩
    intro x hx
    obtain ⟨tq, _, rfl⟩ := List.mem_map.mp hx
    exact ⟨hge tq.1 tq.2, hle tq.1 tq.2⟩
  refine ⟨_, _, topics_of_tree t hv, h3, hstored, hout, ?_⟩
  intro hM
  have hM' : (items.length : Int) ≤ 100000 := by exact_mod_cast hM
  constructor
  · intro p inner topic c h1 h2
    have := (hstored p inner topic c h1 h2).2
    omega
  · intro qs out ho x hx
    obtain ⟨out', ho', hb⟩ := hout qs
    rw [ho] at ho'
    injection ho' with ho'
    subst ho'
    have := (hb x hx).2
    omega

/-- C19, on the sample of the source: with 5 questions the answers to the four queries lie
between 0 and 5. -/
theorem C19_counts_bounded_witness :
    sampleTree.WellFormed ∧ (∀ it ∈ sampleItems, it.1 ∈ sampleTree.names)
      ∧ ∃ m tbl, GetTopicsToTopicsOnPaths sampleTree.line = .ok m
        ∧ GetPrefixToTopicToCount sampleItems m = .ok tbl
        ∧ ∃ out, SolveQueries sampleQueries tbl = .ok out ∧ ∀ x ∈ out, 0 ≤ x ∧ x ≤ 5 := by
  obtain ⟨m, tbl, h1, h2, _, h4, _⟩ :=
    C19_counts_bounded sampleTree sampleItems (by decide) (by decide)
  exact ⟨by decide, by decide, m, tbl, h1, h2, h4 sampleQueries⟩

/-- C20. Lines without a separator are not rejected: for every line without a space, of a
size below `npos` as every `std::string` is, `find_first_of` gives `npos`, which is -1 as
an `int`, and both `ParseQuestion` and `GetTopicsAndQueries` return the line twice, as the
topic name and as the text; so a query line of a single word is answered as the query of
the topic and the text that are both this word. -/
theorem C20_line_without_space (line : Str) (h : ' ' ∉ line)
    (hlen : line.length < 2 ^ 64 - 1) :
    find_first_of_space line = -1
      ∧ ParseQuestion line = .ok (line, line)
      ∧ GetTopicsAndQueries [line] = .ok [(line, line)]
      ∧ ∀ tbl, (GetTopicsAndQueries [line] >>= fun tqs => SolveQueries tqs tbl)
          = SolveQueries [(line, line)] tbl := by
  have h3 : GetTopicsAndQueries [line] = .ok [(line, line)] := by
    unfold GetTopicsAndQueries
    rw [List.mapM_cons, parseQuery_no_space line h hlen]
    rfl
  refine ⟨?_, ParseQuestion_no_space line h hlen, h3, ?_⟩
  · rw [find_first_of_space, spaceIndex_eq_none line h]
  · intro tbl
    rw [h3]
    rfl

/-- C20, on the line `Birds`: it is read as the topic `Birds` with the text `Birds`. -/
theorem C20_line_without_space_witness :
    ' ' ∉ "Birds".toList ∧ "Birds".toList.length < 2 ^ 64 - 1
      ∧ ParseQuestion "Birds".toList = .ok ("Birds".toList, "Birds".toList)
      ∧ GetTopicsAndQueries ["Birds".toList] = .ok [("Birds".toList, "Birds".toList)] := by
  have h := C20_line_without_space "Birds".toList (by decide) (by decide)
  exact ⟨by decide, by decide, h.2.1, h.2.2.1⟩

end Ontology
